import Mathlib

/-! Festival schedule generator: stage planning.

A shallow embedding of `festival_schedule_generator_challenge.cpp`:

* `Show`, the comparator `SortShows`;
* `SolutionPriorityQueue` : `StageInfo`, its `operator>`, and `CreatePlanning`, the loop over the
  shows driven by a `std::priority_queue` with `std::greater<StageInfo>`;
* `SolutionWithNestedLoops` : `AreShowsNotOverlapping`, `AreShowsOverlapping`, `CanFitStage`
  and `CreatePlanning`.

Modelling conventions.

* `int` times are `Int`. The program only compares times, it never adds or subtracts them, so no
  wrap-around can occur; every 32-bit value is an `Int`.
* `std::vector` is `List`; `push_back` appends at the end.
* `std::priority_queue<StageInfo, vector<StageInfo>, greater<StageInfo>>` is modelled by the list
  of records it holds. `top()` is the record that is least for `operator>` (the order is total on
  the pair of fields, so that record is determined by the contents), `pop()` removes one copy of
  it, `push` adds a record. The position of the records inside the heap array is not observable
  through `top`/`pop`/`push`/`empty` and is not modelled.
* `planning[i].push_back(show)` is undefined in C++ when `i` is out of range; the model returns
  `none` there, so `CreatePlanning` of the priority-queue solution is `Option`-valued.
* `atoi` is `(int) strtol(s, NULL, 10)`: its result always lies in the 32-bit `int` range, so
  every show built by `ReadInputFromFile` has times the program can hold.
-/

/-- A show: `startTime`, `endTime`, `name` (class `Show`). -/
structure Show where
  startTime : Int
  endTime : Int
  name : String
deriving DecidableEq

/-- The comparator handed to `std::sort`:
`(a.start == b.start) ? (a.end < b.end) : (a.start < b.start)`. -/
def SortShows (showA showB : Show) : Bool :=
  if showA.startTime = showB.startTime then decide (showA.endTime < showB.endTime)
  else decide (showA.startTime < showB.startTime)

/-- A sequence is sorted with respect to a comparator when no later element compares less than
an earlier one: `comp(*(i + n), *i) == false` for all valid `i`, `n`. -/
def SortedBy (comp : Show → Show → Bool) (l : List Show) : Prop :=
  l.Pairwise (fun a b => comp b a = false)

instance (comp : Show → Show → Bool) (l : List Show) : Decidable (SortedBy comp l) := by
  unfold SortedBy; infer_instance

/-- Well-formed shows: `startTime < endTime`. -/
def ValidShows (l : List Show) : Prop := ∀ e ∈ l, e.startTime < e.endTime

instance (l : List Show) : Decidable (ValidShows l) := by
  unfold ValidShows; infer_instance

namespace SolutionPriorityQueue

/-- The record kept in the priority queue: end time of the last show planned on a stage, and the
stage number. -/
structure StageInfo where
  lastShowEndtime : Int
  stageNumber : Nat
deriving DecidableEq

/-- The `operator>` of `StageInfo`:
`(lhs.end == rhs.end) ? (lhs.stageNumber > rhs.stageNumber) : (lhs.end > rhs.end)`. -/
def StageInfo.gt (lhs rhs : StageInfo) : Bool :=
  if lhs.lastShowEndtime = rhs.lastShowEndtime then decide (lhs.stageNumber > rhs.stageNumber)
  else decide (lhs.lastShowEndtime > rhs.lastShowEndtime)

/-- The `top()` of the queue: the record that is not `operator>` any other record; `none` when
the queue is empty. -/
def top : List StageInfo → Option StageInfo
  | [] => none
  | x :: xs =>
    match top xs with
    | none => some x
    | some y => if StageInfo.gt x y then some y else some x

/-- The `pop()` of the queue: removes one copy of the top record. -/
def pop (q : List StageInfo) : List StageInfo :=
  match top q with
  | none => q
  | some t => q.erase t

/-- The `push(x)` of the queue. -/
def push (q : List StageInfo) (x : StageInfo) : List StageInfo := x :: q

/-- The statement `planning[i].push_back(show)`; `none` when `i` is out of range. -/
def pushBackAt : List (List Show) → Nat → Show → Option (List (List Show))
  | [], _, _ => none
  | stage :: rest, 0, sh => some ((stage ++ [sh]) :: rest)
  | stage :: rest, i + 1, sh => (pushBackAt rest i sh).map (fun r => stage :: r)

/-- The local state of `CreatePlanning`: the counter, the queue, and the planning (which the
function receives by reference). -/
structure State where
  lastCreatedStageNumber : Nat
  currentStagesInfoQueue : List StageInfo
  planning : List (List Show)
deriving DecidableEq

/-- The branch `if (!canFitAlreadyExistingStage)`: a new stage holding the show is appended and a
record `(show.endTime, lastCreatedStageNumber++)` is pushed. -/
def openStage (st : State) (sh : Show) : State :=
  { lastCreatedStageNumber := st.lastCreatedStageNumber + 1
    currentStagesInfoQueue :=
      push st.currentStagesInfoQueue ⟨sh.endTime, st.lastCreatedStageNumber⟩
    planning := st.planning ++ [[sh]] }

/-- One iteration of the `for` loop of `CreatePlanning`. -/
def step (st : State) (sh : Show) : Option State :=
  match top st.currentStagesInfoQueue with
  | none => some (openStage st sh)
  | some stageWithEarliestEndTime =>
    if sh.startTime > stageWithEarliestEndTime.lastShowEndtime then
      match pushBackAt st.planning stageWithEarliestEndTime.stageNumber sh with
      | none => none
      | some planning' =>
        some { lastCreatedStageNumber := st.lastCreatedStageNumber
               currentStagesInfoQueue :=
                 push (pop st.currentStagesInfoQueue)
                   ⟨sh.endTime, stageWithEarliestEndTime.stageNumber⟩
               planning := planning' }
    else some (openStage st sh)

/-- The loop of `CreatePlanning` from a given state. -/
def run : State → List Show → Option State
  | st, [] => some st
  | st, sh :: rest =>
    match step st sh with
    | none => none
    | some st' => run st' rest

/-- The function `SolutionPriorityQueue::CreatePlanning(showsList, planning)`: the planning after
the call, or `none` if an out-of-range stage was indexed. -/
def CreatePlanning (showsList : List Show) (planning : List (List Show)) :
    Option (List (List Show)) :=
  (run ⟨0, [], planning⟩ showsList).map (fun st => st.planning)

end SolutionPriorityQueue

namespace SolutionWithNestedLoops

/-- The function `AreShowsNotOverlapping`. -/
def AreShowsNotOverlapping (showA showB : Show) : Bool :=
  (decide (showA.startTime < showB.startTime) && decide (showA.endTime < showB.startTime)) ||
  (decide (showB.startTime < showA.startTime) && decide (showB.endTime < showA.startTime))

/-- The function `AreShowsOverlapping`. -/
def AreShowsOverlapping (showA showB : Show) : Bool :=
  !AreShowsNotOverlapping showA showB

/-- The function `CanFitStage`: the scan of the stage stops at the first overlapping show. -/
def CanFitStage (currentShow : Show) : List Show → Bool
  | [] => true
  | sh :: rest => if AreShowsOverlapping currentShow sh then false else CanFitStage currentShow rest

/-- The inner loop of `CreatePlanning`: the show is pushed on the first stage it fits;
`none` when the loop ends with `canFitAlreadyExistingStage == false`. -/
def place (sh : Show) : List (List Show) → Option (List (List Show))
  | [] => none
  | stage :: rest =>
    if CanFitStage sh stage then some ((stage ++ [sh]) :: rest)
    else (place sh rest).map (fun r => stage :: r)

/-- One iteration of the outer loop of `CreatePlanning`. -/
def step (planning : List (List Show)) (sh : Show) : List (List Show) :=
  match place sh planning with
  | some planning' => planning'
  | none => planning ++ [[sh]]

/-- The function `SolutionWithNestedLoops::CreatePlanning(showsList, planning)`: the planning
after the call. -/
def CreatePlanning (showsList : List Show) (planning : List (List Show)) : List (List Show) :=
  showsList.foldl step planning

end SolutionWithNestedLoops

/-- The overlap predicate as the specification words it (section 4.4):
`NOT (A.end <= B.start OR B.end <= A.start)`. -/
def specOverlaps (a b : Show) : Bool :=
  !(decide (a.endTime ≤ b.startTime) || decide (b.endTime ≤ a.startTime))

/-- Number of shows of `l` active at instant `t` when a show occupies `start ≤ t < end`
(end exclusive). -/
def activeExcl (t : Int) (l : List Show) : Nat :=
  l.countP (fun e => decide (e.startTime ≤ t) && decide (t < e.endTime))

/-- Number of shows of `l` active at instant `t` when a show occupies `start ≤ t ≤ end`
(end inclusive). -/
def activeIncl (t : Int) (l : List Show) : Nat :=
  l.countP (fun e => decide (e.startTime ≤ t) && decide (t ≤ e.endTime))

/-- End time of the last show of a stage (`0` for a stage without shows): the value the queue
record of the stage carries. -/
def lastEnd (stage : List Show) : Int :=
  match stage.getLast? with
  | some e => e.endTime
  | none => 0

/-- Two shows are apart when one ends strictly before the other starts. -/
def Apart (a b : Show) : Prop := a.endTime < b.startTime ∨ b.endTime < a.startTime

/-- A stage is chronological when every show ends strictly before each later show starts. -/
def Chrono (stage : List Show) : Prop := stage.Pairwise (fun a b => a.endTime < b.startTime)

/-- The two ways an iteration changes a planning, with what is known in each: either the show is
pushed on a stage all of whose shows end strictly before it starts, or a new stage is appended
and every existing stage holds a show that ends no earlier than the show starts. -/
inductive GreedyStep (sh : Show) : List (List Show) → List (List Show) → Prop
  | fit (A : List (List Show)) (stage : List Show) (B : List (List Show)) :
      (∀ e ∈ stage, e.endTime < sh.startTime) →
      GreedyStep sh (A ++ stage :: B) (A ++ (stage ++ [sh]) :: B)
  | fresh (P : List (List Show)) :
      (∀ stage ∈ P, ∃ e ∈ stage, sh.startTime ≤ e.endTime) →
      GreedyStep sh P (P ++ [[sh]])

/-- What holds of the planning `P` once the shows `pre` have been processed, when the input is
sorted and well formed. -/
structure GreedyInv (pre : List Show) (P : List (List Show)) : Prop where
  perm : P.flatten.Perm pre
  chrono : ∀ stage ∈ P, Chrono stage
  nonempty : ∀ stage ∈ P, stage ≠ []
  depth : ∃ t, P.length ≤ activeIncl t pre

namespace SolutionPriorityQueue

/-- The records describing the stages of a planning, the first stage being numbered `k`. -/
def frontierRecords : Nat → List (List Show) → List StageInfo
  | _, [] => []
  | k, stage :: rest => ⟨lastEnd stage, k⟩ :: frontierRecords (k + 1) rest

/-- The queue and the counter agree with the planning: the counter is the number of stages and
the queue holds, in some order, one record `(end of the last show, stage number)` per stage. -/
def Consistent (st : State) : Prop :=
  st.lastCreatedStageNumber = st.planning.length ∧
  st.currentStagesInfoQueue.Perm (frontierRecords 0 st.planning)

end SolutionPriorityQueue

/-! ### Reading the input -/

/-- The loop `while (std::getline(ss, token, ' '))` over the characters that remain, `cur` being
the characters of the token read so far. A space ends the token (which may be empty); at the end
of the line a non-empty token is delivered, and an extraction that reads no character at all
fails, which ends the loop. -/
def tokensFrom : List Char → List Char → List String
  | cur, [] => if cur.isEmpty then [] else [String.mk cur]
  | cur, c :: cs =>
    if c = ' ' then String.mk cur :: tokensFrom [] cs else tokensFrom (cur ++ [c]) cs

/-- The vector `showInfo` built from one line. -/
def splitLine (line : String) : List String := tokensFrom [] line.toList

/-- The C predicate `isspace` in the "C" locale. -/
def isspace (c : Char) : Bool :=
  c = ' ' || c = '\t' || c = '\n' || c = Char.ofNat 11 || c = Char.ofNat 12 || c = '\r'

/-- Value of the longest prefix of decimal digits, continuing from `acc`. -/
def digitsValue : Int → List Char → Int
  | acc, [] => acc
  | acc, c :: cs =>
    if '0' ≤ c ∧ c ≤ '9' then digitsValue (acc * 10 + ((c.toNat : Int) - 48)) cs else acc

/-- The number a string starts with: leading white space is skipped, an optional sign is read,
then as many decimal digits as there are; `0` when there is no digit. -/
def leadingNumber (s : String) : Int :=
  match s.toList.dropWhile isspace with
  | '-' :: ds => - digitsValue 0 ds
  | '+' :: ds => digitsValue 0 ds
  | ds => digitsValue 0 ds

/-- The C library function `strtol(s, NULL, 10)` with a 64-bit `long`: the number the string
starts with, replaced by `LONG_MAX` or `LONG_MIN` when it is outside the range of `long`. -/
def strtol (s : String) : Int :=
  max (-9223372036854775808) (min (leadingNumber s) 9223372036854775807)

/-- Conversion of a `long` to the 32-bit `int`: the value reduced modulo `2^32` into the range
`-2^31 ≤ v < 2^31`. -/
def toInt32 (v : Int) : Int := (v + 2147483648) % 4294967296 - 2147483648

/-- The C library function `atoi`, which is `(int) strtol(s, NULL, 10)`. A number in the range of
`int` is returned as it is; for a larger one the C standard leaves the result undefined, and the
value taken here is the one of the GNU C library on a platform with 64-bit `long`. -/
def atoi (s : String) : Int := toInt32 (strtol s)

/-- The loop `while (getline(file, line))` of `ReadInputFromFile` over the lines that remain:
a line with three tokens adds `Show(atoi(showInfo[1]), atoi(showInfo[2]), showInfo[0])`, any other
line sets `result = false` and leaves the loop. -/
def readLines : List String → List Show → Bool × List Show
  | [], shows => (true, shows)
  | line :: rest, shows =>
    if (splitLine line).length = 3 then
      readLines rest
        (shows ++ [⟨atoi ((splitLine line).getD 1 ""), atoi ((splitLine line).getD 2 ""),
          (splitLine line).getD 0 ""⟩])
    else (false, shows)

/-- The function `ReadInputFromFile(fileName, shows)`, the file being given by its lines, or
`none` when it could not be opened; the result is the returned flag with the vector `shows`
after the call. -/
def ReadInputFromFile (file : Option (List String)) (shows : List Show) : Bool × List Show :=
  match file with
  | some lines => readLines lines shows
  | none => (false, shows)

/-! ### Reference steps, as the claims word them -/

/-- The least end time of the last shows of the stages; `none` for a planning without stages. -/
def minFrontier : List (List Show) → Option Int
  | [] => none
  | stage :: rest =>
    match minFrontier rest with
    | none => some (lastEnd stage)
    | some m => some (min (lastEnd stage) m)

/-- The planning with the show pushed on the lowest-numbered stage whose last show ends at `m`. -/
def pushOnFirstEndingAt (m : Int) (sh : Show) : List (List Show) → List (List Show)
  | [] => []
  | stage :: rest =>
    if lastEnd stage = m then (stage ++ [sh]) :: rest
    else stage :: pushOnFirstEndingAt m sh rest

/-- The iteration of the priority-queue solution told on the planning alone: when there is a
stage and the show starts strictly after the least end time `m` of the last shows, the show goes
on the lowest-numbered stage whose last show ends at `m`; otherwise it opens a new last stage. -/
def minFrontierStep (P : List (List Show)) (sh : Show) : List (List Show) :=
  match minFrontier P with
  | some m => if sh.startTime > m then pushOnFirstEndingAt m sh P else P ++ [[sh]]
  | none => P ++ [[sh]]

/-- The planning with the show pushed on the lowest-numbered stage whose last show ends strictly
before the show starts; `none` when there is no such stage. -/
def pushOnFirstEndingBefore (sh : Show) : List (List Show) → Option (List (List Show))
  | [] => none
  | stage :: rest =>
    if lastEnd stage < sh.startTime then some ((stage ++ [sh]) :: rest)
    else (pushOnFirstEndingBefore sh rest).map (fun r => stage :: r)

/-- First fit on the last show only: the show goes on the lowest-numbered stage whose last show
ends strictly before it starts, and opens a new last stage when there is none. -/
def lastShowFirstFit (P : List (List Show)) (sh : Show) : List (List Show) :=
  match pushOnFirstEndingBefore sh P with
  | some P' => P'
  | none => P ++ [[sh]]

/-- A stage is in order within the input `L`: it holds a show, each show ends strictly before
the next one starts, the start times increase strictly along the stage, and the shows stand in
the stage in the order in which they stand in `L`. -/
def OrderedStage (L stage : List Show) : Prop :=
  stage ≠ [] ∧ stage.Chain' (fun p q => p.endTime < q.startTime) ∧
  stage.Pairwise (fun p q => p.startTime < q.startTime) ∧ stage.Sublist L

/-! ## Basic facts about the comparators -/

theorem SortShows_iff (a b : Show) :
    SortShows a b = true ↔
      a.startTime < b.startTime ∨ (a.startTime = b.startTime ∧ a.endTime < b.endTime) := by
  unfold SortShows
  split <;> simp <;> omega

theorem SortShows_false_start_le {a b : Show} (h : SortShows b a = false) :
    a.startTime ≤ b.startTime := by
  have h1 : ¬ SortShows b a = true := by simp [h]
  rw [SortShows_iff] at h1
  omega

namespace SolutionWithNestedLoops

theorem AreShowsNotOverlapping_iff (a b : Show) :
    AreShowsNotOverlapping a b = true ↔
      (a.startTime < b.startTime ∧ a.endTime < b.startTime) ∨
      (b.startTime < a.startTime ∧ b.endTime < a.startTime) := by
  simp [AreShowsNotOverlapping]

theorem AreShowsOverlapping_eq_false_iff (a b : Show) :
    AreShowsOverlapping a b = false ↔ AreShowsNotOverlapping a b = true := by
  simp [AreShowsOverlapping]

end SolutionWithNestedLoops

/-! ## Lists of stages -/

theorem flatten_fit_perm (A : List (List Show)) (stage : List Show) (B : List (List Show))
    (sh : Show) :
    (A ++ (stage ++ [sh]) :: B).flatten.Perm ((A ++ stage :: B).flatten ++ [sh]) := by
  simp only [List.flatten_append, List.flatten_cons, List.append_assoc]
  refine List.Perm.append_left _ (List.Perm.append_left _ ?_)
  exact @List.perm_append_comm _ [sh] B.flatten

theorem flatten_fresh (P : List (List Show)) (sh : Show) :
    (P ++ [[sh]]).flatten = P.flatten ++ [sh] := by
  simp

theorem lastEnd_concat (stage : List Show) (sh : Show) : lastEnd (stage ++ [sh]) = sh.endTime := by
  simp [lastEnd]

theorem lastEnd_mem {stage : List Show} (h : stage ≠ []) :
    ∃ e ∈ stage, e.endTime = lastEnd stage := by
  cases hl : stage.getLast? with
  | none => exact absurd (List.getLast?_eq_none_iff.mp hl) h
  | some e => exact ⟨e, List.mem_of_getLast?_eq_some hl, by simp [lastEnd, hl]⟩

theorem Chrono_le_lastEnd {stage : List Show} (hc : Chrono stage)
    (hv : ∀ e ∈ stage, e.startTime ≤ e.endTime) : ∀ e ∈ stage, e.endTime ≤ lastEnd stage := by
  intro e he
  cases hl : stage.getLast? with
  | none =>
    have := List.getLast?_eq_none_iff.mp hl
    simp [this] at he
  | some z =>
    obtain ⟨ys, rfl⟩ := List.getLast?_eq_some_iff.mp hl
    have hz : lastEnd (ys ++ [z]) = z.endTime := lastEnd_concat ys z
    rw [hz]
    rcases List.mem_append.mp he with h | h
    · have h1 := (List.pairwise_append.mp hc).2.2 e h z (by simp)
      have h2 := hv z (by simp)
      omega
    · simp at h
      subst h
      exact le_refl _

/-! ## Counting active shows -/

theorem activeIncl_append (t : Int) (l₁ l₂ : List Show) :
    activeIncl t (l₁ ++ l₂) = activeIncl t l₁ + activeIncl t l₂ := by
  simp [activeIncl, List.countP_append]

theorem activeIncl_perm (t : Int) {l₁ l₂ : List Show} (h : l₁.Perm l₂) :
    activeIncl t l₁ = activeIncl t l₂ :=
  List.Perm.countP_eq _ h

theorem activeIncl_pos_of_mem {t : Int} {l : List Show} {e : Show} (he : e ∈ l)
    (h1 : e.startTime ≤ t) (h2 : t ≤ e.endTime) : 1 ≤ activeIncl t l := by
  unfold activeIncl
  apply List.countP_pos_iff.mpr
  exact ⟨e, he, by simp [h1, h2]⟩

theorem activeIncl_Chrono_le_one (t : Int) {stage : List Show} (hc : Chrono stage) :
    activeIncl t stage ≤ 1 := by
  induction stage with
  | nil => simp [activeIncl]
  | cons a rest ih =>
    have hc' := List.pairwise_cons.mp hc
    have ih' := ih hc'.2
    by_cases ha : a.startTime ≤ t ∧ t ≤ a.endTime
    · have hz : activeIncl t rest = 0 := by
        unfold activeIncl
        apply List.countP_eq_zero.mpr
        intro b hb
        have := hc'.1 b hb
        simp only [Bool.and_eq_true, decide_eq_true_eq, not_and, not_le]
        omega
      have : activeIncl t (a :: rest) = activeIncl t [a] + activeIncl t rest :=
        activeIncl_append t [a] rest
      rw [this, hz]
      simp [activeIncl, List.countP_cons]
      split <;> omega
    · have : activeIncl t (a :: rest) = activeIncl t rest := by
        unfold activeIncl
        rw [List.countP_cons_of_neg]
        simpa using ha
      omega

theorem activeIncl_flatten_le (t : Int) {P : List (List Show)}
    (h : ∀ stage ∈ P, Chrono stage) : activeIncl t P.flatten ≤ P.length := by
  induction P with
  | nil => simp [activeIncl]
  | cons stage rest ih =>
    rw [List.flatten_cons, activeIncl_append, List.length_cons]
    have h1 := activeIncl_Chrono_le_one t (h stage (by simp))
    have h2 := ih (fun s hs => h s (by simp [hs]))
    omega

theorem activeIncl_flatten_ge (t : Int) {P : List (List Show)}
    (h : ∀ stage ∈ P, ∃ e ∈ stage, e.startTime ≤ t ∧ t ≤ e.endTime) :
    P.length ≤ activeIncl t P.flatten := by
  induction P with
  | nil => simp
  | cons stage rest ih =>
    rw [List.flatten_cons, activeIncl_append, List.length_cons]
    obtain ⟨e, he, h1, h2⟩ := h stage (by simp)
    have h3 := activeIncl_pos_of_mem he h1 h2
    have h4 := ih (fun s hs => h s (by simp [hs]))
    omega

/-! ## The greedy invariant -/

theorem GreedyInv_nil : GreedyInv [] [] :=
  ⟨by simp, by simp, by simp, ⟨0, by simp⟩⟩

theorem GreedyInv_step {pre : List Show} {P P' : List (List Show)} {sh : Show}
    (inv : GreedyInv pre P) (hstep : GreedyStep sh P P')
    (hsorted : ∀ e ∈ pre, e.startTime ≤ sh.startTime) (hvalid : sh.startTime ≤ sh.endTime) :
    GreedyInv (pre ++ [sh]) P' := by
  cases hstep with
  | fit A stage B hfit =>
    refine ⟨?_, ?_, ?_, ?_⟩
    · exact (flatten_fit_perm A stage B sh).trans (List.Perm.append_right _ inv.perm)
    · intro s hs
      rcases List.mem_append.mp hs with h | h
      · exact inv.chrono s (by simp [h])
      · rcases List.mem_cons.mp h with h | h
        · subst h
          unfold Chrono
          rw [List.pairwise_append]
          refine ⟨inv.chrono stage (by simp), by simp, ?_⟩
          intro a ha b hb
          simp at hb
          subst hb
          exact hfit a ha
        · exact inv.chrono s (by simp [h])
    · intro s hs
      rcases List.mem_append.mp hs with h | h
      · exact inv.nonempty s (by simp [h])
      · rcases List.mem_cons.mp h with h | h
        · subst h
          simp
        · exact inv.nonempty s (by simp [h])
    · obtain ⟨t, ht⟩ := inv.depth
      refine ⟨t, ?_⟩
      rw [activeIncl_append]
      simp only [List.length_append, List.length_cons] at ht ⊢
      omega
  | fresh _ hfresh =>
    refine ⟨?_, ?_, ?_, ?_⟩
    · rw [flatten_fresh]
      exact List.Perm.append_right _ inv.perm
    · intro s hs
      rcases List.mem_append.mp hs with h | h
      · exact inv.chrono s h
      · simp at h
        subst h
        simp [Chrono]
    · intro s hs
      rcases List.mem_append.mp hs with h | h
      · exact inv.nonempty s h
      · simp at h
        subst h
        simp
    · refine ⟨sh.startTime, ?_⟩
      have h1 : P.length ≤ activeIncl sh.startTime P.flatten := by
        apply activeIncl_flatten_ge
        intro stage hstage
        obtain ⟨e, he, hle⟩ := hfresh stage hstage
        refine ⟨e, he, hsorted e ?_, hle⟩
        exact inv.perm.subset (List.mem_flatten.mpr ⟨stage, hstage, he⟩)
      have h2 : activeIncl sh.startTime P.flatten = activeIncl sh.startTime pre :=
        activeIncl_perm _ inv.perm
      have h3 : 1 ≤ activeIncl sh.startTime [sh] :=
        activeIncl_pos_of_mem (by simp) (le_refl _) hvalid
      rw [activeIncl_append]
      simp only [List.length_append, List.length_cons, List.length_nil]
      omega

theorem GreedyInv_depth {L : List Show} {P : List (List Show)} (inv : GreedyInv L P) :
    (∀ t, activeIncl t L ≤ P.length) ∧ ∃ t, activeIncl t L = P.length := by
  have hub : ∀ t, activeIncl t L ≤ P.length := by
    intro t
    rw [← activeIncl_perm t inv.perm]
    exact activeIncl_flatten_le t inv.chrono
  refine ⟨hub, ?_⟩
  obtain ⟨t, ht⟩ := inv.depth
  exact ⟨t, le_antisymm (hub t) ht⟩

theorem sorted_prefix_start_le {pre rest : List Show} {sh : Show}
    (h : SortedBy SortShows (pre ++ sh :: rest)) : ∀ e ∈ pre, e.startTime ≤ sh.startTime := by
  intro e he
  have := (List.pairwise_append.mp h).2.2 e he sh (by simp)
  exact SortShows_false_start_le this

/-! ## The nested-loops solution, one iteration -/

namespace SolutionWithNestedLoops

theorem CanFitStage_iff (sh : Show) (stage : List Show) :
    CanFitStage sh stage = true ↔ ∀ e ∈ stage, AreShowsNotOverlapping sh e = true := by
  induction stage with
  | nil => simp [CanFitStage]
  | cons a rest ih =>
    unfold CanFitStage
    by_cases h : AreShowsNotOverlapping sh a = true
    · simp [AreShowsOverlapping, h, ih]
    · simp [AreShowsOverlapping, h]

theorem CanFitStage_false_iff (sh : Show) (stage : List Show) :
    CanFitStage sh stage = false ↔ ∃ e ∈ stage, AreShowsOverlapping sh e = true := by
  rw [← Bool.not_eq_true, CanFitStage_iff]
  simp [AreShowsOverlapping]

theorem place_eq_none_iff (sh : Show) (P : List (List Show)) :
    place sh P = none ↔ ∀ stage ∈ P, CanFitStage sh stage = false := by
  induction P with
  | nil => simp [place]
  | cons stage rest ih =>
    unfold place
    by_cases h : CanFitStage sh stage = true
    · simp [h]
    · simp [h, ih]

theorem place_eq_some {sh : Show} {P P' : List (List Show)} (h : place sh P = some P') :
    ∃ A stage B, P = A ++ stage :: B ∧ P' = A ++ (stage ++ [sh]) :: B ∧
      CanFitStage sh stage = true ∧ ∀ s ∈ A, CanFitStage sh s = false := by
  induction P generalizing P' with
  | nil => simp [place] at h
  | cons stage rest ih =>
    unfold place at h
    by_cases hc : CanFitStage sh stage = true
    · simp only [hc, if_true, Option.some.injEq] at h
      exact ⟨[], stage, rest, by simp, by simp [h], hc, by simp⟩
    · simp only [hc, Bool.false_eq_true, if_false, Option.map_eq_some'] at h
      obtain ⟨r, hr, rfl⟩ := h
      obtain ⟨A, stage', B, h1, h2, h3, h4⟩ := ih hr
      refine ⟨stage :: A, stage', B, by simp [h1], by simp [h2], h3, ?_⟩
      intro s hs
      rcases List.mem_cons.mp hs with h | h
      · subst h
        simpa using hc
      · exact h4 s h

/-- What one iteration of the outer loop does: the show goes on the first stage it fits, or on a
new last stage when it fits none. -/
theorem nl_step_cases (P : List (List Show)) (sh : Show) :
    (∃ A stage B, P = A ++ stage :: B ∧ step P sh = A ++ (stage ++ [sh]) :: B ∧
        CanFitStage sh stage = true ∧ ∀ s ∈ A, CanFitStage sh s = false) ∨
    (step P sh = P ++ [[sh]] ∧ ∀ stage ∈ P, CanFitStage sh stage = false) := by
  unfold step
  cases h : place sh P with
  | none => exact Or.inr ⟨rfl, (place_eq_none_iff sh P).mp h⟩
  | some P' => exact Or.inl (place_eq_some h)

theorem nl_step_greedy {P : List (List Show)} {sh : Show}
    (hsorted : ∀ e ∈ P.flatten, e.startTime ≤ sh.startTime)
    (hvalid : ∀ e ∈ P.flatten, e.startTime ≤ e.endTime) :
    GreedyStep sh P (step P sh) := by
  rcases nl_step_cases P sh with ⟨A, stage, B, hP, hP', hfit, -⟩ | ⟨hP', hno⟩
  · rw [hP']
    subst hP
    apply GreedyStep.fit
    intro e he
    have h1 := (AreShowsNotOverlapping_iff sh e).mp ((CanFitStage_iff sh stage).mp hfit e he)
    have h2 := hsorted e (List.mem_flatten.mpr ⟨stage, by simp, he⟩)
    omega
  · rw [hP']
    apply GreedyStep.fresh
    intro stage hstage
    obtain ⟨e, he, hov⟩ := (CanFitStage_false_iff sh stage).mp (hno stage hstage)
    refine ⟨e, he, ?_⟩
    have h1 : ¬ AreShowsNotOverlapping sh e = true := by
      simpa [AreShowsOverlapping] using hov
    rw [AreShowsNotOverlapping_iff] at h1
    have h2 := hsorted e (List.mem_flatten.mpr ⟨stage, hstage, he⟩)
    have h3 := hvalid e (List.mem_flatten.mpr ⟨stage, hstage, he⟩)
    omega

theorem nl_run_GreedyInv (rest : List Show) :
    ∀ (pre : List Show) (P : List (List Show)), GreedyInv pre P →
      SortedBy SortShows (pre ++ rest) → ValidShows (pre ++ rest) →
      GreedyInv (pre ++ rest) (CreatePlanning rest P) := by
  induction rest with
  | nil =>
    intro pre P inv _ _
    simpa [CreatePlanning] using inv
  | cons sh rest ih =>
    intro pre P inv hs hv
    have hpre : ∀ e ∈ pre, e.startTime ≤ sh.startTime := sorted_prefix_start_le hs
    have hmem : ∀ e ∈ P.flatten, e ∈ pre := fun e he => inv.perm.subset he
    have hstep : GreedyStep sh P (step P sh) :=
      nl_step_greedy (fun e he => hpre e (hmem e he))
        (fun e he => le_of_lt (hv e (by simp [hmem e he])))
    have inv' := GreedyInv_step inv hstep hpre (le_of_lt (hv sh (by simp)))
    have := ih (pre ++ [sh]) (step P sh) inv' (by simpa using hs) (by simpa using hv)
    simpa [CreatePlanning] using this

end SolutionWithNestedLoops

/-! ## The priority-queue solution, one iteration -/

namespace SolutionPriorityQueue

theorem StageInfo.gt_false_iff (a b : StageInfo) :
    StageInfo.gt a b = false ↔
      a.lastShowEndtime < b.lastShowEndtime ∨
      (a.lastShowEndtime = b.lastShowEndtime ∧ a.stageNumber ≤ b.stageNumber) := by
  unfold StageInfo.gt
  split <;> simp <;> omega

theorem top_eq_none_iff (q : List StageInfo) : top q = none ↔ q = [] := by
  cases q with
  | nil => simp [top]
  | cons x xs =>
    unfold top
    cases top xs with
    | none => simp
    | some y => simp only; split <;> simp

theorem top_mem {q : List StageInfo} {t : StageInfo} (h : top q = some t) : t ∈ q := by
  induction q generalizing t with
  | nil => simp [top] at h
  | cons x xs ih =>
    unfold top at h
    cases hxs : top xs with
    | none =>
      simp only [hxs, Option.some.injEq] at h
      simp [h]
    | some y =>
      simp only [hxs] at h
      split at h
      · simp only [Option.some.injEq] at h
        subst h
        exact List.mem_cons_of_mem _ (ih hxs)
      · simp only [Option.some.injEq] at h
        simp [h]

/-- The top record is not `operator>` any record of the queue. -/
theorem top_least {q : List StageInfo} {t : StageInfo} (h : top q = some t) :
    ∀ x ∈ q, StageInfo.gt t x = false := by
  induction q generalizing t with
  | nil => simp [top] at h
  | cons x xs ih =>
    unfold top at h
    cases hxs : top xs with
    | none =>
      simp only [hxs, Option.some.injEq] at h
      subst h
      have : xs = [] := (top_eq_none_iff xs).mp hxs
      subst this
      intro z hz
      simp only [List.mem_singleton] at hz
      subst hz
      rw [StageInfo.gt_false_iff]
      omega
    | some y =>
      simp only [hxs] at h
      have ihy := ih hxs
      by_cases hg : StageInfo.gt x y = true
      · simp only [hg, if_true, Option.some.injEq] at h
        subst h
        intro z hz
        rcases List.mem_cons.mp hz with hz | hz
        · subst hz
          have h1 : ¬ StageInfo.gt z y = false := by simp [hg]
          rw [StageInfo.gt_false_iff] at h1 ⊢
          omega
        · exact ihy z hz
      · simp only [hg, Bool.false_eq_true, if_false, Option.some.injEq] at h
        subst h
        have hg' : StageInfo.gt x y = false := by simpa using hg
        intro z hz
        rcases List.mem_cons.mp hz with hz | hz
        · subst hz
          rw [StageInfo.gt_false_iff]
          omega
        · have h2 := ihy z hz
          rw [StageInfo.gt_false_iff] at hg' h2 ⊢
          omega

theorem top_end_le {q : List StageInfo} {t : StageInfo} (h : top q = some t) :
    ∀ x ∈ q, t.lastShowEndtime ≤ x.lastShowEndtime := by
  intro x hx
  have := (StageInfo.gt_false_iff t x).mp (top_least h x hx)
  omega

theorem pop_eq_erase {q : List StageInfo} {t : StageInfo} (h : top q = some t) :
    pop q = q.erase t := by
  simp [pop, h]

theorem pushBackAt_decomp (A : List (List Show)) (stage : List Show) (B : List (List Show))
    (sh : Show) :
    pushBackAt (A ++ stage :: B) A.length sh = some (A ++ (stage ++ [sh]) :: B) := by
  induction A with
  | nil => simp [pushBackAt]
  | cons a A ih => simp [pushBackAt, ih]

theorem frontierRecords_length (k : Nat) (P : List (List Show)) :
    (frontierRecords k P).length = P.length := by
  induction P generalizing k with
  | nil => simp [frontierRecords]
  | cons stage rest ih => simp [frontierRecords, ih]

theorem frontierRecords_append (k : Nat) (A B : List (List Show)) :
    frontierRecords k (A ++ B) = frontierRecords k A ++ frontierRecords (k + A.length) B := by
  induction A generalizing k with
  | nil => simp [frontierRecords]
  | cons a A ih =>
    have hk : k + 1 + A.length = k + (A.length + 1) := by omega
    rw [List.cons_append, frontierRecords, frontierRecords, ih, hk, List.length_cons,
      List.cons_append]

theorem mem_frontierRecords {k : Nat} {P : List (List Show)} {x : StageInfo}
    (h : x ∈ frontierRecords k P) :
    ∃ A stage B, P = A ++ stage :: B ∧ x = ⟨lastEnd stage, k + A.length⟩ := by
  induction P generalizing k with
  | nil => simp [frontierRecords] at h
  | cons stage rest ih =>
    simp only [frontierRecords, List.mem_cons] at h
    rcases h with h | h
    · exact ⟨[], stage, rest, by simp, by simp [h]⟩
    · obtain ⟨A, stage', B, h1, h2⟩ := ih h
      refine ⟨stage :: A, stage', B, by simp [h1], ?_⟩
      rw [h2]
      simp only [List.length_cons, StageInfo.mk.injEq, true_and]
      omega

theorem frontierRecords_of_mem {k : Nat} {P : List (List Show)} {stage : List Show}
    (h : stage ∈ P) : ∃ i, (⟨lastEnd stage, i⟩ : StageInfo) ∈ frontierRecords k P := by
  induction P generalizing k with
  | nil => simp at h
  | cons s rest ih =>
    rcases List.mem_cons.mp h with h | h
    · subst h
      exact ⟨k, by simp [frontierRecords]⟩
    · obtain ⟨i, hi⟩ := ih (k := k + 1) h
      exact ⟨i, by simp [frontierRecords, hi]⟩

theorem Consistent_init : Consistent ⟨0, [], []⟩ := by
  simp [Consistent, frontierRecords]

theorem Consistent_openStage {st : State} (h : Consistent st) (sh : Show) :
    Consistent (openStage st sh) := by
  obtain ⟨h1, h2⟩ := h
  refine ⟨by simp [openStage, h1], ?_⟩
  simp only [openStage, push, frontierRecords_append, frontierRecords, Nat.zero_add]
  have hl : lastEnd [sh] = sh.endTime := lastEnd_concat [] sh
  rw [hl, h1]
  exact ((List.perm_append_singleton _ _).symm.trans (List.Perm.append_right _ h2))

/-- What one iteration does when queue and planning agree: it never indexes out of range, queue
and planning agree again afterwards, and either the show is pushed on a stage whose last show
ends strictly before the show starts, or a new last stage is created and the last show of every
existing stage ends no earlier than the show starts. -/
theorem pq_step_cases {st : State} (hc : Consistent st) (sh : Show) :
    ∃ st', step st sh = some st' ∧ Consistent st' ∧
      ((∃ A stage B, st.planning = A ++ stage :: B ∧
          st'.planning = A ++ (stage ++ [sh]) :: B ∧ lastEnd stage < sh.startTime) ∨
       (st'.planning = st.planning ++ [[sh]] ∧
          ∀ stage ∈ st.planning, sh.startTime ≤ lastEnd stage)) := by
  unfold step
  cases ht : top st.currentStagesInfoQueue with
  | none =>
    refine ⟨openStage st sh, rfl, Consistent_openStage hc sh, Or.inr ⟨rfl, ?_⟩⟩
    have hq : st.currentStagesInfoQueue = [] := (top_eq_none_iff _).mp ht
    have hlen := hc.2.length_eq
    rw [hq, frontierRecords_length] at hlen
    have : st.planning = [] := List.length_eq_zero.mp hlen.symm
    simp [this]
  | some t =>
    by_cases hgt : sh.startTime > t.lastShowEndtime
    · have htq : t ∈ frontierRecords 0 st.planning := hc.2.subset (top_mem ht)
      obtain ⟨A, stage, B, hP, hx⟩ := mem_frontierRecords htq
      have hnum : t.stageNumber = A.length := by simp [hx]
      have hend : t.lastShowEndtime = lastEnd stage := by simp [hx]
      have hpush : pushBackAt st.planning t.stageNumber sh =
          some (A ++ (stage ++ [sh]) :: B) := by
        rw [hP, hnum]
        exact pushBackAt_decomp A stage B sh
      simp only [hgt, if_true, hpush]
      refine ⟨_, rfl, ⟨?_, ?_⟩, Or.inl ⟨A, stage, B, hP, rfl, by omega⟩⟩
      · simp [hc.1, hP]
      · simp only [push, pop_eq_erase ht, frontierRecords_append, frontierRecords,
          Nat.zero_add, lastEnd_concat, hnum]
        have hfr : frontierRecords 0 st.planning =
            frontierRecords 0 A ++ t :: frontierRecords (A.length + 1) B := by
          rw [hP, frontierRecords_append]
          simp [frontierRecords, hx]
        have h1 : (st.currentStagesInfoQueue.erase t).Perm
            (frontierRecords 0 A ++ frontierRecords (A.length + 1) B) := by
          have h2 := List.Perm.erase t (hc.2.trans (hfr ▸ List.perm_middle))
          simpa using h2
        exact (List.Perm.cons _ h1).trans List.perm_middle.symm
    · simp only [hgt, if_false]
      refine ⟨openStage st sh, rfl, Consistent_openStage hc sh, Or.inr ⟨rfl, ?_⟩⟩
      intro stage hstage
      obtain ⟨i, hi⟩ := frontierRecords_of_mem (k := 0) hstage
      have := top_end_le ht _ (hc.2.symm.subset hi)
      simp only at this
      omega

end SolutionPriorityQueue

/-! ## The two loops -/

namespace SolutionPriorityQueue

theorem pq_step_greedy {st : State} (hc : Consistent st) (sh : Show)
    (hchrono : ∀ stage ∈ st.planning, Chrono stage)
    (hne : ∀ stage ∈ st.planning, stage ≠ [])
    (hvalid : ∀ e ∈ st.planning.flatten, e.startTime ≤ e.endTime) :
    ∃ st', step st sh = some st' ∧ Consistent st' ∧ GreedyStep sh st.planning st'.planning := by
  obtain ⟨st', h1, h2, h3⟩ := pq_step_cases hc sh
  refine ⟨st', h1, h2, ?_⟩
  rcases h3 with ⟨A, stage, B, hP, hP', hlt⟩ | ⟨hP', hall⟩
  · rw [hP, hP']
    apply GreedyStep.fit
    intro e he
    have hmem : stage ∈ st.planning := by simp [hP]
    have := Chrono_le_lastEnd (hchrono stage hmem)
      (fun x hx => hvalid x (List.mem_flatten.mpr ⟨stage, hmem, hx⟩)) e he
    omega
  · rw [hP']
    apply GreedyStep.fresh
    intro stage hstage
    obtain ⟨e, he, hend⟩ := lastEnd_mem (hne stage hstage)
    exact ⟨e, he, by have := hall stage hstage; omega⟩

/-- From a state where queue and planning agree the loop never indexes out of range, and the
final planning holds the shows it held before together with the shows processed. -/
theorem pq_run_perm (rest : List Show) :
    ∀ st : State, Consistent st →
      ∃ st', run st rest = some st' ∧ Consistent st' ∧
        st'.planning.flatten.Perm (st.planning.flatten ++ rest) := by
  induction rest with
  | nil =>
    intro st hc
    exact ⟨st, rfl, hc, by simp⟩
  | cons sh rest ih =>
    intro st hc
    obtain ⟨st1, h1, hc1, hcase⟩ := pq_step_cases hc sh
    obtain ⟨st2, h2, hc2, hperm⟩ := ih st1 hc1
    refine ⟨st2, by simp [run, h1, h2], hc2, ?_⟩
    have hone : st1.planning.flatten.Perm (st.planning.flatten ++ [sh]) := by
      rcases hcase with ⟨A, stage, B, hP, hP', -⟩ | ⟨hP', -⟩
      · rw [hP, hP']
        exact flatten_fit_perm A stage B sh
      · rw [hP', flatten_fresh]
    have := hperm.trans (List.Perm.append_right rest hone)
    simpa using this

theorem pq_run_GreedyInv (rest : List Show) :
    ∀ (pre : List Show) (st : State), Consistent st → GreedyInv pre st.planning →
      SortedBy SortShows (pre ++ rest) → ValidShows (pre ++ rest) →
      ∃ st', run st rest = some st' ∧ Consistent st' ∧ GreedyInv (pre ++ rest) st'.planning := by
  induction rest with
  | nil =>
    intro pre st hc inv _ _
    exact ⟨st, rfl, hc, by simpa using inv⟩
  | cons sh rest ih =>
    intro pre st hc inv hs hv
    have hpre : ∀ e ∈ pre, e.startTime ≤ sh.startTime := sorted_prefix_start_le hs
    have hmem : ∀ e ∈ st.planning.flatten, e ∈ pre := fun e he => inv.perm.subset he
    obtain ⟨st1, h1, hc1, hstep⟩ := pq_step_greedy hc sh inv.chrono inv.nonempty
      (fun e he => le_of_lt (hv e (by simp [hmem e he])))
    have inv1 := GreedyInv_step inv hstep hpre (le_of_lt (hv sh (by simp)))
    obtain ⟨st2, h2, hc2, inv2⟩ :=
      ih (pre ++ [sh]) st1 hc1 inv1 (by simpa using hs) (by simpa using hv)
    exact ⟨st2, by simp [run, h1, h2], hc2, by simpa using inv2⟩

/-- On a sorted list of well-formed shows, from an empty planning, `CreatePlanning` returns a
planning that satisfies the greedy invariant for the whole input. -/
theorem pq_CreatePlanning_GreedyInv {L : List Show} (hv : ValidShows L)
    (hs : SortedBy SortShows L) :
    ∃ P, CreatePlanning L [] = some P ∧ GreedyInv L P := by
  obtain ⟨st', h1, -, h3⟩ :=
    pq_run_GreedyInv L [] ⟨0, [], []⟩ Consistent_init GreedyInv_nil (by simpa using hs)
      (by simpa using hv)
  exact ⟨st'.planning, by simp [CreatePlanning, h1], by simpa using h3⟩

end SolutionPriorityQueue

namespace SolutionWithNestedLoops

theorem nl_CreatePlanning_GreedyInv {L : List Show} (hv : ValidShows L)
    (hs : SortedBy SortShows L) : GreedyInv L (CreatePlanning L []) := by
  have := nl_run_GreedyInv L [] [] GreedyInv_nil (by simpa using hs) (by simpa using hv)
  simpa using this

theorem nl_step_perm (P : List (List Show)) (sh : Show) :
    (step P sh).flatten.Perm (P.flatten ++ [sh]) := by
  rcases nl_step_cases P sh with ⟨A, stage, B, hP, hP', -, -⟩ | ⟨hP', -⟩
  · rw [hP', hP]
    exact flatten_fit_perm A stage B sh
  · rw [hP', flatten_fresh]

theorem nl_run_perm (rest : List Show) :
    ∀ P : List (List Show), (CreatePlanning rest P).flatten.Perm (P.flatten ++ rest) := by
  induction rest with
  | nil => intro P; simp [CreatePlanning]
  | cons sh rest ih =>
    intro P
    have h1 : (CreatePlanning rest (step P sh)).flatten.Perm ((step P sh).flatten ++ rest) :=
      ih (step P sh)
    have h2 := h1.trans (List.Perm.append_right rest (nl_step_perm P sh))
    simpa [CreatePlanning] using h2

theorem nl_step_apart {P : List (List Show)} (sh : Show)
    (h : ∀ stage ∈ P, stage.Pairwise Apart) : ∀ stage ∈ step P sh, stage.Pairwise Apart := by
  rcases nl_step_cases P sh with ⟨A, stage, B, hP, hP', hfit, -⟩ | ⟨hP', -⟩
  · rw [hP']
    subst hP
    intro s hs
    rcases List.mem_append.mp hs with hs | hs
    · exact h s (by simp [hs])
    · rcases List.mem_cons.mp hs with hs | hs
      · subst hs
        rw [List.pairwise_append]
        refine ⟨h stage (by simp), by simp, ?_⟩
        intro a ha b hb
        simp only [List.mem_singleton] at hb
        subst hb
        have := (AreShowsNotOverlapping_iff b a).mp ((CanFitStage_iff b stage).mp hfit a ha)
        unfold Apart
        omega
      · exact h s (by simp [hs])
  · rw [hP']
    intro s hs
    rcases List.mem_append.mp hs with hs | hs
    · exact h s hs
    · simp only [List.mem_singleton] at hs
      subst hs
      simp

theorem nl_run_apart (rest : List Show) :
    ∀ P : List (List Show), (∀ stage ∈ P, stage.Pairwise Apart) →
      ∀ stage ∈ CreatePlanning rest P, stage.Pairwise Apart := by
  induction rest with
  | nil => intro P h; simpa [CreatePlanning] using h
  | cons sh rest ih =>
    intro P h
    have := ih (step P sh) (nl_step_apart sh h)
    simpa [CreatePlanning] using this

end SolutionWithNestedLoops

theorem Chrono_apart {stage : List Show} (h : Chrono stage) : stage.Pairwise Apart :=
  List.Pairwise.imp (fun hab => Or.inl hab) h

theorem apart_specOverlaps {stage : List Show} (h : stage.Pairwise Apart) :
    ∀ (i j : Nat) (hi : i < stage.length) (hj : j < stage.length), i ≠ j →
      specOverlaps stage[i] stage[j] = false := by
  intro i j hi hj hij
  have key : Apart stage[i] stage[j] := by
    rcases Nat.lt_or_gt_of_ne hij with hlt | hlt
    · exact List.pairwise_iff_getElem.mp h i j hi hj hlt
    · exact (List.pairwise_iff_getElem.mp h j i hj hi hlt).symm
  unfold Apart at key
  simp only [specOverlaps, Bool.not_eq_false', Bool.or_eq_true, decide_eq_true_eq]
  omega

/-! ## Claims about the plannings -/

/-- C1 (the claim as stated fails): the list `[("A",1,3), ("B",3,5)]` is well formed and sorted,
at no instant more than one of its shows is active when a show occupies `start ≤ t < end`, yet
`SolutionPriorityQueue.CreatePlanning` produces the two stages `[A]` and `[B]`: the number of
stages is not the end-exclusive depth. -/
theorem C1_adjacent_shows_need_two_stages :
    ValidShows [⟨1, 3, "A"⟩, ⟨3, 5, "B"⟩] ∧
    SortedBy SortShows [⟨1, 3, "A"⟩, ⟨3, 5, "B"⟩] ∧
    SolutionPriorityQueue.CreatePlanning [⟨1, 3, "A"⟩, ⟨3, 5, "B"⟩] [] =
      some [[⟨1, 3, "A"⟩], [⟨3, 5, "B"⟩]] ∧
    (∀ t, activeExcl t [⟨1, 3, "A"⟩, ⟨3, 5, "B"⟩] ≤ 1) ∧
    ¬ ∃ P, SolutionPriorityQueue.CreatePlanning [⟨1, 3, "A"⟩, ⟨3, 5, "B"⟩] [] = some P ∧
        (∀ t, activeExcl t [⟨1, 3, "A"⟩, ⟨3, 5, "B"⟩] ≤ P.length) ∧
        ∃ t, activeExcl t [⟨1, 3, "A"⟩, ⟨3, 5, "B"⟩] = P.length := by
  have hrun : SolutionPriorityQueue.CreatePlanning [⟨1, 3, "A"⟩, ⟨3, 5, "B"⟩] [] =
      some [[⟨1, 3, "A"⟩], [⟨3, 5, "B"⟩]] := by decide
  have hdepth : ∀ t, activeExcl t [⟨1, 3, "A"⟩, ⟨3, 5, "B"⟩] ≤ 1 := by
    intro t
    simp only [activeExcl, List.countP_cons, List.countP_nil, Bool.and_eq_true,
      decide_eq_true_eq]
    split_ifs <;> omega
  refine ⟨by decide, by decide, hrun, hdepth, ?_⟩
  rintro ⟨P, hP, -, t, ht⟩
  rw [hrun] at hP
  have hPeq : P = [[⟨1, 3, "A"⟩], [⟨3, 5, "B"⟩]] := (Option.some.inj hP).symm
  have := hdepth t
  rw [ht, hPeq] at this
  simp at this

/-- C1 (amended): for every list of shows with `start < end` that is sorted by `SortShows`,
`SolutionPriorityQueue.CreatePlanning`, started from an empty planning, returns a planning whose
number of stages is the largest number of input shows simultaneously active at one instant `t`,
a show being active at `t` when `start ≤ t ≤ end` (end inclusive). -/
theorem C1_pq_stage_count_is_inclusive_depth (L : List Show)
    (hvalid : ValidShows L) (hsorted : SortedBy SortShows L) :
    ∃ P, SolutionPriorityQueue.CreatePlanning L [] = some P ∧
      (∀ t, activeIncl t L ≤ P.length) ∧ ∃ t, activeIncl t L = P.length := by
  obtain ⟨P, hP, inv⟩ := SolutionPriorityQueue.pq_CreatePlanning_GreedyInv hvalid hsorted
  exact ⟨P, hP, GreedyInv_depth inv⟩

/-- C1 (amended) at the sorted input `[("A",1,3), ("B",3,5), ("C",4,6)]`. -/
theorem C1_pq_stage_count_is_inclusive_depth_witness :
    ValidShows [⟨1, 3, "A"⟩, ⟨3, 5, "B"⟩, ⟨4, 6, "C"⟩] ∧
    SortedBy SortShows [⟨1, 3, "A"⟩, ⟨3, 5, "B"⟩, ⟨4, 6, "C"⟩] ∧
    ∃ P, SolutionPriorityQueue.CreatePlanning [⟨1, 3, "A"⟩, ⟨3, 5, "B"⟩, ⟨4, 6, "C"⟩] [] =
        some P ∧
      (∀ t, activeIncl t [⟨1, 3, "A"⟩, ⟨3, 5, "B"⟩, ⟨4, 6, "C"⟩] ≤ P.length) ∧
      ∃ t, activeIncl t [⟨1, 3, "A"⟩, ⟨3, 5, "B"⟩, ⟨4, 6, "C"⟩] = P.length :=
  ⟨by decide, by decide,
    C1_pq_stage_count_is_inclusive_depth [⟨1, 3, "A"⟩, ⟨3, 5, "B"⟩, ⟨4, 6, "C"⟩]
      (by decide) (by decide)⟩

/-- C2: for every list of shows with `start < end` that is sorted by `SortShows`, the two
`CreatePlanning` functions, each started from an empty planning, produce plannings with the same
number of stages. -/
theorem C2_same_stage_count (L : List Show)
    (hvalid : ValidShows L) (hsorted : SortedBy SortShows L) :
    ∃ P, SolutionPriorityQueue.CreatePlanning L [] = some P ∧
      P.length = (SolutionWithNestedLoops.CreatePlanning L []).length := by
  obtain ⟨P, hP, inv⟩ := SolutionPriorityQueue.pq_CreatePlanning_GreedyInv hvalid hsorted
  refine ⟨P, hP, ?_⟩
  obtain ⟨hub1, t1, ht1⟩ := GreedyInv_depth inv
  obtain ⟨hub2, t2, ht2⟩ :=
    GreedyInv_depth (SolutionWithNestedLoops.nl_CreatePlanning_GreedyInv hvalid hsorted)
  have h1 := hub2 t1
  have h2 := hub1 t2
  omega

/-- C2 at the sorted input `[("A",1,5), ("B",2,3), ("C",6,7)]`. -/
theorem C2_same_stage_count_witness :
    ValidShows [⟨1, 5, "A"⟩, ⟨2, 3, "B"⟩, ⟨6, 7, "C"⟩] ∧
    SortedBy SortShows [⟨1, 5, "A"⟩, ⟨2, 3, "B"⟩, ⟨6, 7, "C"⟩] ∧
    ∃ P, SolutionPriorityQueue.CreatePlanning [⟨1, 5, "A"⟩, ⟨2, 3, "B"⟩, ⟨6, 7, "C"⟩] [] =
        some P ∧
      P.length = (SolutionWithNestedLoops.CreatePlanning
        [⟨1, 5, "A"⟩, ⟨2, 3, "B"⟩, ⟨6, 7, "C"⟩] []).length :=
  ⟨by decide, by decide,
    C2_same_stage_count [⟨1, 5, "A"⟩, ⟨2, 3, "B"⟩, ⟨6, 7, "C"⟩] (by decide) (by decide)⟩

/-- C3 (the claim as stated fails): the list `[("A",1,5), ("B",2,3), ("C",6,7)]` is well formed
and sorted; the priority-queue solution plans `[A]`, `[B, C]` and the nested-loops solution
plans `[A, C]`, `[B]`, so the stages with the same index do not hold the same shows. -/
theorem C3_partitions_differ :
    ValidShows [⟨1, 5, "A"⟩, ⟨2, 3, "B"⟩, ⟨6, 7, "C"⟩] ∧
    SortedBy SortShows [⟨1, 5, "A"⟩, ⟨2, 3, "B"⟩, ⟨6, 7, "C"⟩] ∧
    SolutionPriorityQueue.CreatePlanning [⟨1, 5, "A"⟩, ⟨2, 3, "B"⟩, ⟨6, 7, "C"⟩] [] =
      some [[⟨1, 5, "A"⟩], [⟨2, 3, "B"⟩, ⟨6, 7, "C"⟩]] ∧
    SolutionWithNestedLoops.CreatePlanning [⟨1, 5, "A"⟩, ⟨2, 3, "B"⟩, ⟨6, 7, "C"⟩] [] =
      [[⟨1, 5, "A"⟩, ⟨6, 7, "C"⟩], [⟨2, 3, "B"⟩]] ∧
    ¬ ∃ P, SolutionPriorityQueue.CreatePlanning [⟨1, 5, "A"⟩, ⟨2, 3, "B"⟩, ⟨6, 7, "C"⟩] [] =
          some P ∧
        P.length = (SolutionWithNestedLoops.CreatePlanning
          [⟨1, 5, "A"⟩, ⟨2, 3, "B"⟩, ⟨6, 7, "C"⟩] []).length ∧
        ∀ i, (P.getD i []).Perm ((SolutionWithNestedLoops.CreatePlanning
          [⟨1, 5, "A"⟩, ⟨2, 3, "B"⟩, ⟨6, 7, "C"⟩] []).getD i []) := by
  have hpq : SolutionPriorityQueue.CreatePlanning
      [⟨1, 5, "A"⟩, ⟨2, 3, "B"⟩, ⟨6, 7, "C"⟩] [] =
      some [[⟨1, 5, "A"⟩], [⟨2, 3, "B"⟩, ⟨6, 7, "C"⟩]] := by decide
  have hnl : SolutionWithNestedLoops.CreatePlanning
      [⟨1, 5, "A"⟩, ⟨2, 3, "B"⟩, ⟨6, 7, "C"⟩] [] =
      [[⟨1, 5, "A"⟩, ⟨6, 7, "C"⟩], [⟨2, 3, "B"⟩]] := by decide
  refine ⟨by decide, by decide, hpq, hnl, ?_⟩
  rintro ⟨P, hP, -, hall⟩
  rw [hpq] at hP
  have hPeq : P = [[⟨1, 5, "A"⟩], [⟨2, 3, "B"⟩, ⟨6, 7, "C"⟩]] := (Option.some.inj hP).symm
  have h0 := (hall 0).length_eq
  rw [hnl, hPeq] at h0
  simp at h0

/-- C3 (amended): for every list of shows with `start < end` that is sorted by `SortShows`, the
two `CreatePlanning` functions produce plannings with the same number of stages that hold,
over all their stages together, the same shows with the same multiplicities. -/
theorem C3_same_count_same_shows (L : List Show)
    (hvalid : ValidShows L) (hsorted : SortedBy SortShows L) :
    ∃ P, SolutionPriorityQueue.CreatePlanning L [] = some P ∧
      P.length = (SolutionWithNestedLoops.CreatePlanning L []).length ∧
      P.flatten.Perm (SolutionWithNestedLoops.CreatePlanning L []).flatten := by
  obtain ⟨P, hP, inv⟩ := SolutionPriorityQueue.pq_CreatePlanning_GreedyInv hvalid hsorted
  have inv2 := SolutionWithNestedLoops.nl_CreatePlanning_GreedyInv hvalid hsorted
  refine ⟨P, hP, ?_, inv.perm.trans inv2.perm.symm⟩
  obtain ⟨hub1, t1, ht1⟩ := GreedyInv_depth inv
  obtain ⟨hub2, t2, ht2⟩ := GreedyInv_depth inv2
  have h1 := hub2 t1
  have h2 := hub1 t2
  omega

/-- C3 (amended) at the sorted input `[("A",1,5), ("B",2,3), ("C",6,7)]`. -/
theorem C3_same_count_same_shows_witness :
    ValidShows [⟨1, 5, "A"⟩, ⟨2, 3, "B"⟩, ⟨6, 7, "C"⟩] ∧
    SortedBy SortShows [⟨1, 5, "A"⟩, ⟨2, 3, "B"⟩, ⟨6, 7, "C"⟩] ∧
    ∃ P, SolutionPriorityQueue.CreatePlanning [⟨1, 5, "A"⟩, ⟨2, 3, "B"⟩, ⟨6, 7, "C"⟩] [] =
        some P ∧
      P.length = (SolutionWithNestedLoops.CreatePlanning
        [⟨1, 5, "A"⟩, ⟨2, 3, "B"⟩, ⟨6, 7, "C"⟩] []).length ∧
      P.flatten.Perm (SolutionWithNestedLoops.CreatePlanning
        [⟨1, 5, "A"⟩, ⟨2, 3, "B"⟩, ⟨6, 7, "C"⟩] []).flatten :=
  ⟨by decide, by decide,
    C3_same_count_same_shows [⟨1, 5, "A"⟩, ⟨2, 3, "B"⟩, ⟨6, 7, "C"⟩] (by decide) (by decide)⟩

/-- C4: for every list of shows, each `CreatePlanning` function, started from an empty planning,
produces a planning whose stages, concatenated, are a permutation of the input list (and the
priority-queue solution does return a planning). -/
theorem C4_completeness (L : List Show) :
    (∃ P, SolutionPriorityQueue.CreatePlanning L [] = some P ∧ P.flatten.Perm L) ∧
    (SolutionWithNestedLoops.CreatePlanning L []).flatten.Perm L := by
  constructor
  · obtain ⟨st', h1, -, h3⟩ :=
      SolutionPriorityQueue.pq_run_perm L ⟨0, [], []⟩ SolutionPriorityQueue.Consistent_init
    exact ⟨st'.planning, by simp [SolutionPriorityQueue.CreatePlanning, h1], by simpa using h3⟩
  · simpa using SolutionWithNestedLoops.nl_run_perm L []

/-- C5: for every list of shows with `start < end` that is sorted by `SortShows`,
`SolutionPriorityQueue.CreatePlanning`, started from an empty planning, returns a planning in
which any two shows at distinct positions of the same stage do not overlap in the sense
`NOT (A.end <= B.start OR B.end <= A.start)`. -/
theorem C5_pq_stages_do_not_overlap (L : List Show)
    (hvalid : ValidShows L) (hsorted : SortedBy SortShows L) :
    ∃ P, SolutionPriorityQueue.CreatePlanning L [] = some P ∧
      ∀ stage ∈ P, ∀ (i j : Nat) (hi : i < stage.length) (hj : j < stage.length), i ≠ j →
        specOverlaps stage[i] stage[j] = false := by
  obtain ⟨P, hP, inv⟩ := SolutionPriorityQueue.pq_CreatePlanning_GreedyInv hvalid hsorted
  exact ⟨P, hP, fun stage hstage => apart_specOverlaps (Chrono_apart (inv.chrono stage hstage))⟩

/-- C5 at the sorted input `[("A",1,3), ("B",2,5), ("C",4,6)]`. -/
theorem C5_pq_stages_do_not_overlap_witness :
    ValidShows [⟨1, 3, "A"⟩, ⟨2, 5, "B"⟩, ⟨4, 6, "C"⟩] ∧
    SortedBy SortShows [⟨1, 3, "A"⟩, ⟨2, 5, "B"⟩, ⟨4, 6, "C"⟩] ∧
    ∃ P, SolutionPriorityQueue.CreatePlanning [⟨1, 3, "A"⟩, ⟨2, 5, "B"⟩, ⟨4, 6, "C"⟩] [] =
        some P ∧
      ∀ stage ∈ P, ∀ (i j : Nat) (hi : i < stage.length) (hj : j < stage.length), i ≠ j →
        specOverlaps stage[i] stage[j] = false :=
  ⟨by decide, by decide,
    C5_pq_stages_do_not_overlap [⟨1, 3, "A"⟩, ⟨2, 5, "B"⟩, ⟨4, 6, "C"⟩] (by decide) (by decide)⟩

/-- C6: for every list of shows, in any order and well formed or not, in the planning
`SolutionWithNestedLoops.CreatePlanning` produces from an empty planning any two shows at
distinct positions of the same stage do not overlap in the sense
`NOT (A.end <= B.start OR B.end <= A.start)`. -/
theorem C6_nl_stages_do_not_overlap (L : List Show) :
    ∀ stage ∈ SolutionWithNestedLoops.CreatePlanning L [],
      ∀ (i j : Nat) (hi : i < stage.length) (hj : j < stage.length), i ≠ j →
        specOverlaps stage[i] stage[j] = false := by
  intro stage hstage
  exact apart_specOverlaps (SolutionWithNestedLoops.nl_run_apart L [] (by simp) stage hstage)

/-- C6 at the unsorted input `[("C",4,6), ("B",2,5), ("A",1,3)]`, whose first stage is `[C, A]`. -/
theorem C6_nl_stages_do_not_overlap_witness :
    [⟨4, 6, "C"⟩, ⟨1, 3, "A"⟩] ∈
      SolutionWithNestedLoops.CreatePlanning [⟨4, 6, "C"⟩, ⟨2, 5, "B"⟩, ⟨1, 3, "A"⟩] [] ∧
    specOverlaps ⟨4, 6, "C"⟩ ⟨1, 3, "A"⟩ = false :=
  ⟨by decide,
    C6_nl_stages_do_not_overlap [⟨4, 6, "C"⟩, ⟨2, 5, "B"⟩, ⟨1, 3, "A"⟩]
      [⟨4, 6, "C"⟩, ⟨1, 3, "A"⟩] (by decide) 0 1 (by decide) (by decide) (by decide)⟩

/-! ## Claims about the comparators and the fixed scenarios -/

/-- C7 (the claim as stated fails): for the well-formed shows `A = (1,3)` and `B = (3,5)`, where
`A` ends exactly when `B` starts, `AreShowsOverlapping A B` is `true` whereas the specified
predicate `NOT (A.end <= B.start OR B.end <= A.start)` is `false`. -/
theorem C7_adjacent_shows_overlap :
    (⟨1, 3, "A"⟩ : Show).startTime < (⟨1, 3, "A"⟩ : Show).endTime ∧
    (⟨3, 5, "B"⟩ : Show).startTime < (⟨3, 5, "B"⟩ : Show).endTime ∧
    SolutionWithNestedLoops.AreShowsOverlapping ⟨1, 3, "A"⟩ ⟨3, 5, "B"⟩ = true ∧
    specOverlaps ⟨1, 3, "A"⟩ ⟨3, 5, "B"⟩ = false ∧
    SolutionWithNestedLoops.AreShowsOverlapping ⟨1, 3, "A"⟩ ⟨3, 5, "B"⟩ ≠
      specOverlaps ⟨1, 3, "A"⟩ ⟨3, 5, "B"⟩ := by
  decide

/-- C7 (amended): for shows `A`, `B` with `start < end`, `AreShowsOverlapping A B` is
`NOT (A.end < B.start OR B.end < A.start)`, with strict comparisons; in particular when `A` ends
exactly when `B` starts, `AreShowsOverlapping A B` is `true`. -/
theorem C7_AreShowsOverlapping_strict (a b : Show)
    (ha : a.startTime < a.endTime) (hb : b.startTime < b.endTime) :
    SolutionWithNestedLoops.AreShowsOverlapping a b =
        !(decide (a.endTime < b.startTime) || decide (b.endTime < a.startTime)) ∧
    (a.endTime = b.startTime → SolutionWithNestedLoops.AreShowsOverlapping a b = true) := by
  have key : SolutionWithNestedLoops.AreShowsOverlapping a b =
      !(decide (a.endTime < b.startTime) || decide (b.endTime < a.startTime)) := by
    unfold SolutionWithNestedLoops.AreShowsOverlapping
    congr 1
    rw [Bool.eq_iff_iff, SolutionWithNestedLoops.AreShowsNotOverlapping_iff]
    simp only [Bool.or_eq_true, decide_eq_true_eq]
    omega
  refine ⟨key, fun h => ?_⟩
  rw [key]
  simp only [Bool.not_eq_true', Bool.or_eq_false_iff, decide_eq_false_iff_not]
  omega

/-- C7 (amended) at `A = (1,3)`, `B = (3,5)`. -/
theorem C7_AreShowsOverlapping_strict_witness :
    SolutionWithNestedLoops.AreShowsOverlapping ⟨1, 3, "A"⟩ ⟨3, 5, "B"⟩ =
        !(decide ((⟨1, 3, "A"⟩ : Show).endTime < (⟨3, 5, "B"⟩ : Show).startTime) ||
          decide ((⟨3, 5, "B"⟩ : Show).endTime < (⟨1, 3, "A"⟩ : Show).startTime)) ∧
    ((⟨1, 3, "A"⟩ : Show).endTime = (⟨3, 5, "B"⟩ : Show).startTime →
      SolutionWithNestedLoops.AreShowsOverlapping ⟨1, 3, "A"⟩ ⟨3, 5, "B"⟩ = true) :=
  C7_AreShowsOverlapping_strict ⟨1, 3, "A"⟩ ⟨3, 5, "B"⟩ (by decide) (by decide)

/-- C8: `SortShows` is the lexicographic order on `(start, end)`; it is irreflexive, asymmetric
and transitive; two shows are incomparable exactly when they have the same start and the same
end (so incomparability is transitive too); and for `X = (0,5)`, `Y = (0,3)`, `SortShows Y X`
holds while `SortShows X Y` does not, so the order `Y, X` is sorted and the order `X, Y` is
not. -/
theorem C8_SortShows_strict_weak_order :
    (∀ a b : Show, SortShows a b = true ↔
        a.startTime < b.startTime ∨ (a.startTime = b.startTime ∧ a.endTime < b.endTime)) ∧
    (∀ a : Show, SortShows a a = false) ∧
    (∀ a b : Show, SortShows a b = true → SortShows b a = false) ∧
    (∀ a b c : Show, SortShows a b = true → SortShows b c = true → SortShows a c = true) ∧
    (∀ a b : Show, (SortShows a b = false ∧ SortShows b a = false) ↔
        (a.startTime = b.startTime ∧ a.endTime = b.endTime)) ∧
    (∀ a b c : Show, SortShows a b = false → SortShows b a = false →
        SortShows b c = false → SortShows c b = false →
        SortShows a c = false ∧ SortShows c a = false) ∧
    SortShows ⟨0, 3, "Y"⟩ ⟨0, 5, "X"⟩ = true ∧ SortShows ⟨0, 5, "X"⟩ ⟨0, 3, "Y"⟩ = false ∧
    SortedBy SortShows [⟨0, 3, "Y"⟩, ⟨0, 5, "X"⟩] ∧
    ¬ SortedBy SortShows [⟨0, 5, "X"⟩, ⟨0, 3, "Y"⟩] := by
  have hf : ∀ a b : Show, SortShows a b = false ↔
      ¬ (a.startTime < b.startTime ∨ (a.startTime = b.startTime ∧ a.endTime < b.endTime)) := by
    intro a b
    rw [← SortShows_iff]
    simp
  refine ⟨SortShows_iff, ?_, ?_, ?_, ?_, ?_, by decide, by decide, by decide, by decide⟩
  · intro a
    rw [hf]
    omega
  · intro a b
    rw [hf, SortShows_iff]
    omega
  · intro a b c
    rw [SortShows_iff, SortShows_iff, SortShows_iff]
    omega
  · intro a b
    rw [hf, hf]
    omega
  · intro a b c
    rw [hf, hf, hf, hf, hf, hf]
    omega

/-- C9: on the empty list of shows, started from an empty planning, both `CreatePlanning`
functions leave a planning with zero stages. -/
theorem C9_empty_input :
    (SolutionPriorityQueue.CreatePlanning [] []).map List.length = some 0 ∧
    (SolutionWithNestedLoops.CreatePlanning [] []).length = 0 := by
  constructor <;> rfl

/-- C10 (Scenario A): on the sorted input `[("A",1,3), ("B",2,5), ("C",4,6)]` both
`CreatePlanning` functions produce exactly the two stages `[A, C]` and `[B]`, in this order. -/
theorem C10_scenario_A :
    SortedBy SortShows [⟨1, 3, "A"⟩, ⟨2, 5, "B"⟩, ⟨4, 6, "C"⟩] ∧
    SolutionPriorityQueue.CreatePlanning [⟨1, 3, "A"⟩, ⟨2, 5, "B"⟩, ⟨4, 6, "C"⟩] [] =
      some [[⟨1, 3, "A"⟩, ⟨4, 6, "C"⟩], [⟨2, 5, "B"⟩]] ∧
    SolutionWithNestedLoops.CreatePlanning [⟨1, 3, "A"⟩, ⟨2, 5, "B"⟩, ⟨4, 6, "C"⟩] [] =
      [[⟨1, 3, "A"⟩, ⟨4, 6, "C"⟩], [⟨2, 5, "B"⟩]] := by
  decide

/-! ## Further claims about the overlap test and about identical shows -/

/-- C17: `AreShowsOverlapping` and `AreShowsNotOverlapping` are total functions of two shows
(any integers, well formed or not: each returns `true` or `false`, for instance `false` and
`true` on the malformed shows `(5,3)` and `(4,4)`) and both are symmetric in their
arguments. -/
theorem C17_overlap_test_symmetric :
    (∀ a b : Show, SolutionWithNestedLoops.AreShowsOverlapping a b =
        SolutionWithNestedLoops.AreShowsOverlapping b a) ∧
    (∀ a b : Show, SolutionWithNestedLoops.AreShowsNotOverlapping a b =
        SolutionWithNestedLoops.AreShowsNotOverlapping b a) ∧
    (∀ a b : Show, (SolutionWithNestedLoops.AreShowsOverlapping a b = true ∧
        SolutionWithNestedLoops.AreShowsNotOverlapping a b = false) ∨
      (SolutionWithNestedLoops.AreShowsOverlapping a b = false ∧
        SolutionWithNestedLoops.AreShowsNotOverlapping a b = true)) ∧
    SolutionWithNestedLoops.AreShowsOverlapping ⟨5, 3, "A"⟩ ⟨4, 4, "B"⟩ = false ∧
    SolutionWithNestedLoops.AreShowsNotOverlapping ⟨5, 3, "A"⟩ ⟨4, 4, "B"⟩ = true := by
  have hsymm : ∀ a b : Show, SolutionWithNestedLoops.AreShowsNotOverlapping a b =
      SolutionWithNestedLoops.AreShowsNotOverlapping b a := by
    intro a b
    rw [Bool.eq_iff_iff, SolutionWithNestedLoops.AreShowsNotOverlapping_iff,
      SolutionWithNestedLoops.AreShowsNotOverlapping_iff]
    exact Or.comm
  refine ⟨fun a b => ?_, hsymm, fun a b => ?_, by decide, by decide⟩
  · unfold SolutionWithNestedLoops.AreShowsOverlapping
    rw [hsymm a b]
  · unfold SolutionWithNestedLoops.AreShowsOverlapping
    cases SolutionWithNestedLoops.AreShowsNotOverlapping a b <;> simp

theorem lastEnd_singleton (x : Show) : lastEnd [x] = x.endTime :=
  lastEnd_concat [] x

theorem pq_run_singletons (s e : Int) (hse : s < e) (rest : List Show) :
    ∀ (pre : List Show) (st : SolutionPriorityQueue.State),
      SolutionPriorityQueue.Consistent st → st.planning = pre.map (fun x => [x]) →
      (∀ x ∈ pre, x.endTime = e) → (∀ x ∈ rest, x.startTime = s ∧ x.endTime = e) →
      ∃ st', SolutionPriorityQueue.run st rest = some st' ∧
        st'.planning = (pre ++ rest).map (fun x => [x]) := by
  induction rest with
  | nil =>
    intro pre st _ hP _ _
    exact ⟨st, rfl, by simpa using hP⟩
  | cons sh rest ih =>
    intro pre st hc hP hpre hrest
    obtain ⟨st1, h1, hc1, hcase⟩ := SolutionPriorityQueue.pq_step_cases hc sh
    have hsh := hrest sh (by simp)
    have hP1 : st1.planning = (pre ++ [sh]).map (fun x => [x]) := by
      rcases hcase with ⟨A, stage, B, hA, -, hlt⟩ | ⟨hnew, -⟩
      · exfalso
        have hmem : stage ∈ pre.map (fun x => [x]) := by
          rw [← hP, hA]
          simp
        obtain ⟨x, hx, rfl⟩ := List.mem_map.mp hmem
        rw [lastEnd_singleton, hpre x hx] at hlt
        omega
      · rw [hnew, hP]
        simp
    have hpre1 : ∀ x ∈ pre ++ [sh], x.endTime = e := by
      intro x hx
      rcases List.mem_append.mp hx with h | h
      · exact hpre x h
      · simp only [List.mem_singleton] at h
        rw [h]
        exact hsh.2
    obtain ⟨st2, h2, hP2⟩ :=
      ih (pre ++ [sh]) st1 hc1 hP1 hpre1 (fun x hx => hrest x (by simp [hx]))
    exact ⟨st2, by simp [SolutionPriorityQueue.run, h1, h2], by simpa using hP2⟩

theorem nl_run_singletons (s : Int) (rest : List Show) :
    ∀ (pre : List Show), (∀ x ∈ pre, x.startTime = s) → (∀ x ∈ rest, x.startTime = s) →
      SolutionWithNestedLoops.CreatePlanning rest (pre.map (fun x => [x])) =
        (pre ++ rest).map (fun x => [x]) := by
  induction rest with
  | nil =>
    intro pre _ _
    simp [SolutionWithNestedLoops.CreatePlanning]
  | cons sh rest ih =>
    intro pre hpre hrest
    have hsh := hrest sh (by simp)
    have hstep : SolutionWithNestedLoops.step (pre.map (fun x => [x])) sh =
        (pre ++ [sh]).map (fun x => [x]) := by
      rcases SolutionWithNestedLoops.nl_step_cases (pre.map (fun x => [x])) sh with
        ⟨A, stage, B, hA, -, hfit, -⟩ | ⟨hnew, -⟩
      · exfalso
        have hmem : stage ∈ pre.map (fun x => [x]) := by
          rw [hA]
          simp
        obtain ⟨x, hx, rfl⟩ := List.mem_map.mp hmem
        have h1 := (SolutionWithNestedLoops.AreShowsNotOverlapping_iff sh x).mp
          ((SolutionWithNestedLoops.CanFitStage_iff sh [x]).mp hfit x (by simp))
        have h2 := hpre x hx
        omega
      · rw [hnew]
        simp
    have hpre1 : ∀ x ∈ pre ++ [sh], x.startTime = s := by
      intro x hx
      rcases List.mem_append.mp hx with h | h
      · exact hpre x h
      · simp only [List.mem_singleton] at h
        rw [h]
        exact hsh
    have := ih (pre ++ [sh]) hpre1 (fun x hx => hrest x (by simp [hx]))
    rw [← hstep] at this
    simpa [SolutionWithNestedLoops.CreatePlanning] using this

/-- C11: for every list of shows that all have the same start `s` and the same end `e`, with
`s < e` (names arbitrary), both `CreatePlanning` functions, started from an empty planning,
produce as many stages as there are shows, stage `i` holding exactly the `i`-th input show. -/
theorem C11_identical_shows_one_stage_each (L : List Show) (s e : Int) (hse : s < e)
    (hall : ∀ x ∈ L, x.startTime = s ∧ x.endTime = e) :
    SolutionPriorityQueue.CreatePlanning L [] = some (L.map (fun x => [x])) ∧
    SolutionWithNestedLoops.CreatePlanning L [] = L.map (fun x => [x]) ∧
    (L.map (fun x => [x])).length = L.length := by
  refine ⟨?_, ?_, by simp⟩
  · obtain ⟨st', h1, h2⟩ := pq_run_singletons s e hse L [] ⟨0, [], []⟩
      SolutionPriorityQueue.Consistent_init (by simp) (by simp) hall
    simp only [SolutionPriorityQueue.CreatePlanning, h1, Option.map_some']
    simpa using h2
  · have := nl_run_singletons s L [] (by simp) (fun x hx => (hall x hx).1)
    simpa using this

/-- C11 at three shows spanning `[0,10)` (Scenario B): three stages with one show each. -/
theorem C11_identical_shows_one_stage_each_witness :
    SolutionPriorityQueue.CreatePlanning [⟨0, 10, "a"⟩, ⟨0, 10, "b"⟩, ⟨0, 10, "c"⟩] [] =
      some ([⟨0, 10, "a"⟩, ⟨0, 10, "b"⟩, ⟨0, 10, "c"⟩].map (fun x => [x])) ∧
    SolutionWithNestedLoops.CreatePlanning [⟨0, 10, "a"⟩, ⟨0, 10, "b"⟩, ⟨0, 10, "c"⟩] [] =
      [⟨0, 10, "a"⟩, ⟨0, 10, "b"⟩, ⟨0, 10, "c"⟩].map (fun x => [x]) ∧
    ([⟨0, 10, "a"⟩, ⟨0, 10, "b"⟩, ⟨0, 10, "c"⟩].map (fun x : Show => [x])).length =
      [(⟨0, 10, "a"⟩ : Show), ⟨0, 10, "b"⟩, ⟨0, 10, "c"⟩].length :=
  C11_identical_shows_one_stage_each [⟨0, 10, "a"⟩, ⟨0, 10, "b"⟩, ⟨0, 10, "c"⟩] 0 10
    (by decide) (by decide)

/-! ## Reading the input -/

theorem readLines_flag (lines : List String) :
    ∀ shows : List Show,
      (readLines lines shows).1 = true ↔ ∀ line ∈ lines, (splitLine line).length = 3 := by
  induction lines with
  | nil => intro shows; simp [readLines]
  | cons line rest ih =>
    intro shows
    unfold readLines
    by_cases h : (splitLine line).length = 3
    · simp only [h, if_true, ih, List.mem_cons, forall_eq_or_imp, true_and]
    · simp [h]

theorem readLines_all_three (lines : List String) :
    ∀ shows : List Show, (∀ line ∈ lines, (splitLine line).length = 3) →
      readLines lines shows =
        (true, shows ++ lines.map (fun line =>
          (⟨atoi ((splitLine line).getD 1 ""), atoi ((splitLine line).getD 2 ""),
            (splitLine line).getD 0 ""⟩ : Show))) := by
  induction lines with
  | nil => intro shows _; simp [readLines]
  | cons line rest ih =>
    intro shows h
    unfold readLines
    have h1 := h line (by simp)
    simp only [h1, if_true]
    rw [ih _ (fun l hl => h l (by simp [hl]))]
    simp

/-- C12 (the claim as stated fails): the one-line file `A 5 3` has three fields, so
`ReadInputFromFile` returns `true` with the show `(5, 3, "A")`, whose start is not before its
end; the one-line file `A x y`, whose time fields are not integers, is accepted as well, with the
show `(0, 0, "A")`. The list `[(5, 3, "A")]` is sorted and the planning is built from it. -/
theorem C12_reversed_times_accepted :
    ReadInputFromFile (some ["A 5 3"]) [] = (true, [⟨5, 3, "A"⟩]) ∧
    ¬ ValidShows [⟨5, 3, "A"⟩] ∧
    ReadInputFromFile (some ["A x y"]) [] = (true, [⟨0, 0, "A"⟩]) ∧
    ¬ ValidShows [⟨0, 0, "A"⟩] ∧
    SortedBy SortShows [⟨5, 3, "A"⟩] ∧
    SolutionPriorityQueue.CreatePlanning [⟨5, 3, "A"⟩] [] = some [[⟨5, 3, "A"⟩]] ∧
    SolutionWithNestedLoops.CreatePlanning [⟨5, 3, "A"⟩] [] = [[⟨5, 3, "A"⟩]] := by
  decide

theorem atoi_range (s : String) : -2147483648 ≤ atoi s ∧ atoi s < 2147483648 := by
  unfold atoi toInt32
  omega

/-- C12 (amended): `ReadInputFromFile`, applied to the lines of an opened file, returns `false`
exactly when some line does not split into exactly three space-separated fields (and it returns
`false` for a file that could not be opened); when every line splits into three fields it
returns `true` with one show per line, in file order, whose name is the first field and whose
start and end are `atoi` of the second and third fields. `atoi` always yields a value of the
32-bit `int` range: it reads `x` as `0`, `12abc` as `12`, `-7` as `-7` and `2147483648` as
`-2147483648`. Nothing else is checked, and some accepted file yields a show whose start is not
before its end. -/
theorem C12_three_fields_is_the_only_check :
    (∀ lines : List String, (ReadInputFromFile (some lines) []).1 = false ↔
        ∃ line ∈ lines, (splitLine line).length ≠ 3) ∧
    (∀ lines : List String, (∀ line ∈ lines, (splitLine line).length = 3) →
        ReadInputFromFile (some lines) [] =
          (true, lines.map (fun line =>
            (⟨atoi ((splitLine line).getD 1 ""), atoi ((splitLine line).getD 2 ""),
              (splitLine line).getD 0 ""⟩ : Show)))) ∧
    (ReadInputFromFile none []).1 = false ∧
    (∀ s : String, -2147483648 ≤ atoi s ∧ atoi s < 2147483648) ∧
    atoi "x" = 0 ∧ atoi "12abc" = 12 ∧ atoi "-7" = -7 ∧ atoi "2147483647" = 2147483647 ∧
    atoi "2147483648" = -2147483648 ∧ atoi "4294967297" = 1 ∧
    (∃ lines : List String, (ReadInputFromFile (some lines) []).1 = true ∧
        ¬ ValidShows (ReadInputFromFile (some lines) []).2) := by
  refine ⟨?_, ?_, rfl, atoi_range, by decide, by decide, by decide, by decide, by decide,
    by decide, ⟨["A 5 3"], by decide, by decide⟩⟩
  · intro lines
    have h := readLines_flag lines []
    simp only [ReadInputFromFile]
    rw [← Bool.not_eq_true, h]
    simp
  · intro lines hall
    simp only [ReadInputFromFile]
    rw [readLines_all_three lines [] hall]
    simp

/-! ## The iteration of the priority-queue solution, told on the planning -/

theorem minFrontier_eq_none_iff (P : List (List Show)) : minFrontier P = none ↔ P = [] := by
  cases P with
  | nil => simp [minFrontier]
  | cons stage rest =>
    unfold minFrontier
    cases minFrontier rest <;> simp

theorem minFrontier_spec {P : List (List Show)} {m : Int} (h : minFrontier P = some m) :
    (∃ s ∈ P, lastEnd s = m) ∧ ∀ s ∈ P, m ≤ lastEnd s := by
  induction P generalizing m with
  | nil => simp [minFrontier] at h
  | cons stage rest ih =>
    unfold minFrontier at h
    cases hr : minFrontier rest with
    | none =>
      simp only [hr, Option.some.injEq] at h
      have : rest = [] := (minFrontier_eq_none_iff rest).mp hr
      subst this
      subst h
      simp
    | some m' =>
      simp only [hr, Option.some.injEq] at h
      obtain ⟨⟨s, hs, hsm⟩, hle⟩ := ih hr
      subst h
      constructor
      · rcases le_total (lastEnd stage) m' with hc | hc
        · exact ⟨stage, by simp, by simp [hc]⟩
        · exact ⟨s, by simp [hs], by simp [hc, hsm]⟩
      · intro x hx
        rcases List.mem_cons.mp hx with hx | hx
        · subst hx
          exact min_le_left _ _
        · exact le_trans (min_le_right _ _) (hle x hx)

theorem minFrontier_of_least {P : List (List Show)} {stage : List Show} (hmem : stage ∈ P)
    (hleast : ∀ s ∈ P, lastEnd stage ≤ lastEnd s) : minFrontier P = some (lastEnd stage) := by
  cases h : minFrontier P with
  | none =>
    have := (minFrontier_eq_none_iff P).mp h
    simp [this] at hmem
  | some m =>
    obtain ⟨⟨s, hs, hsm⟩, hle⟩ := minFrontier_spec h
    have h1 := hleast s hs
    have h2 := hle stage hmem
    have : m = lastEnd stage := by omega
    rw [this]

theorem pushOnFirstEndingAt_decomp {m : Int} (sh : Show) (A : List (List Show))
    (stage : List Show) (B : List (List Show)) (hA : ∀ s ∈ A, lastEnd s ≠ m)
    (hstage : lastEnd stage = m) :
    pushOnFirstEndingAt m sh (A ++ stage :: B) = A ++ (stage ++ [sh]) :: B := by
  induction A with
  | nil => simp [pushOnFirstEndingAt, hstage]
  | cons a A ih =>
    have ha : lastEnd a ≠ m := hA a (by simp)
    have ih' := ih (fun s hs => hA s (by simp [hs]))
    rw [List.cons_append, pushOnFirstEndingAt, if_neg ha, ih', List.cons_append]

namespace SolutionPriorityQueue

theorem frontierRecords_of_mem_lt {k : Nat} {A : List (List Show)} {stage : List Show}
    (h : stage ∈ A) :
    ∃ i, i < k + A.length ∧ (⟨lastEnd stage, i⟩ : StageInfo) ∈ frontierRecords k A := by
  induction A generalizing k with
  | nil => simp at h
  | cons s rest ih =>
    rcases List.mem_cons.mp h with h | h
    · subst h
      exact ⟨k, by simp, by simp [frontierRecords]⟩
    · obtain ⟨i, hi, hmem⟩ := ih (k := k + 1) h
      exact ⟨i, by simp only [List.length_cons]; omega, by simp [frontierRecords, hmem]⟩

/-- The iteration in full: with no stage yet a stage is opened; otherwise the top record is the
one of the lowest-numbered stage among those whose last show ends earliest, and the show goes on
that stage when it starts strictly after that end, and opens a stage when it does not. -/
theorem pq_step_top {st : State} (hc : Consistent st) (sh : Show) :
    (st.planning = [] ∧ step st sh = some (openStage st sh)) ∨
    (∃ A stage B, st.planning = A ++ stage :: B ∧
      (∀ s ∈ st.planning, lastEnd stage ≤ lastEnd s) ∧
      (∀ s ∈ A, lastEnd s ≠ lastEnd stage) ∧
      top st.currentStagesInfoQueue = some ⟨lastEnd stage, A.length⟩ ∧
      step st sh =
        if sh.startTime > lastEnd stage then
          some { lastCreatedStageNumber := st.lastCreatedStageNumber
                 currentStagesInfoQueue :=
                   push (pop st.currentStagesInfoQueue) ⟨sh.endTime, A.length⟩
                 planning := A ++ (stage ++ [sh]) :: B }
        else some (openStage st sh)) := by
  cases ht : top st.currentStagesInfoQueue with
  | none =>
    left
    have hq : st.currentStagesInfoQueue = [] := (top_eq_none_iff _).mp ht
    have hlen := hc.2.length_eq
    rw [hq, frontierRecords_length] at hlen
    exact ⟨List.length_eq_zero.mp hlen.symm, by simp [step, ht]⟩
  | some t =>
    right
    have htq : t ∈ frontierRecords 0 st.planning := hc.2.subset (top_mem ht)
    obtain ⟨A, stage, B, hP, hx⟩ := mem_frontierRecords htq
    simp only [Nat.zero_add] at hx
    refine ⟨A, stage, B, hP, ?_, ?_, by rw [hx], ?_⟩
    · intro s hs
      obtain ⟨i, hi⟩ := frontierRecords_of_mem (k := 0) hs
      have := top_end_le ht _ (hc.2.symm.subset hi)
      simpa [hx] using this
    · intro s hs
      obtain ⟨i, hi, hmem⟩ := frontierRecords_of_mem_lt (k := 0) hs
      have hmemP : (⟨lastEnd s, i⟩ : StageInfo) ∈ frontierRecords 0 st.planning := by
        rw [hP, frontierRecords_append]
        exact List.mem_append_left _ hmem
      have := (StageInfo.gt_false_iff _ _).mp (top_least ht _ (hc.2.symm.subset hmemP))
      simp only [hx] at this
      omega
    · have hpush : pushBackAt st.planning t.stageNumber sh =
          some (A ++ (stage ++ [sh]) :: B) := by
        rw [hP, hx]
        exact pushBackAt_decomp A stage B sh
      unfold step
      simp only [ht, hpush]
      simp [hx]

/-- One iteration, from a state where queue and planning agree, changes the planning as
`minFrontierStep` tells. -/
theorem pq_step_minFrontier {st : State} (hc : Consistent st) (sh : Show) :
    ∃ st', step st sh = some st' ∧ Consistent st' ∧
      st'.planning = minFrontierStep st.planning sh := by
  obtain ⟨st', h1, h2, -⟩ := pq_step_cases hc sh
  refine ⟨st', h1, h2, ?_⟩
  rcases pq_step_top hc sh with ⟨hP, hstep⟩ | ⟨A, stage, B, hP, hleast, hfirst, -, hstep⟩
  · rw [h1] at hstep
    have : st' = openStage st sh := Option.some.inj hstep
    rw [this]
    simp [openStage, minFrontierStep, minFrontier, hP]
  · have hmin : minFrontier st.planning = some (lastEnd stage) :=
      minFrontier_of_least (by simp [hP]) hleast
    rw [h1] at hstep
    unfold minFrontierStep
    rw [hmin]
    by_cases hgt : sh.startTime > lastEnd stage
    · simp only [hgt, if_true, Option.some.injEq] at hstep
      simp only [hgt, if_true]
      rw [hstep, hP]
      exact (pushOnFirstEndingAt_decomp sh A stage B hfirst rfl).symm
    · simp only [hgt, if_false, Option.some.injEq] at hstep
      simp only [hgt, if_false]
      rw [hstep]
      rfl

theorem run_append (l₁ l₂ : List Show) :
    ∀ st : State, run st (l₁ ++ l₂) = (run st l₁).bind (fun st' => run st' l₂) := by
  induction l₁ with
  | nil => intro st; simp [run]
  | cons a l ih =>
    intro st
    simp only [List.cons_append, run]
    cases step st a with
    | none => simp
    | some st1 => simpa using ih st1

end SolutionPriorityQueue

/-! ## Stages hold shows in input order -/

theorem stages_placed_sublist {P P' : List (List Show)} {pre : List Show} {sh : Show}
    (h : ∀ stage ∈ P, stage ≠ [] ∧ stage.Sublist pre)
    (hcase : (∃ A stage B, P = A ++ stage :: B ∧ P' = A ++ (stage ++ [sh]) :: B) ∨
      P' = P ++ [[sh]]) :
    ∀ stage ∈ P', stage ≠ [] ∧ stage.Sublist (pre ++ [sh]) := by
  have hold : ∀ stage ∈ P, stage ≠ [] ∧ stage.Sublist (pre ++ [sh]) := fun stage hs =>
    ⟨(h stage hs).1, (h stage hs).2.trans (List.sublist_append_left pre [sh])⟩
  rcases hcase with ⟨A, stage, B, hP, hP'⟩ | hP'
  · subst hP hP'
    intro s hs
    rcases List.mem_append.mp hs with hs | hs
    · exact hold s (by simp [hs])
    · rcases List.mem_cons.mp hs with hs | hs
      · subst hs
        exact ⟨by simp, List.Sublist.append (h stage (by simp)).2 (List.Sublist.refl [sh])⟩
      · exact hold s (by simp [hs])
  · subst hP'
    intro s hs
    rcases List.mem_append.mp hs with hs | hs
    · exact hold s hs
    · simp only [List.mem_singleton] at hs
      subst hs
      exact ⟨by simp, List.sublist_append_right pre [sh]⟩

namespace SolutionPriorityQueue

theorem pq_run_sublist (rest : List Show) :
    ∀ (pre : List Show) (st : State), Consistent st →
      (∀ stage ∈ st.planning, stage ≠ [] ∧ stage.Sublist pre) →
      ∃ st', run st rest = some st' ∧ Consistent st' ∧
        ∀ stage ∈ st'.planning, stage ≠ [] ∧ stage.Sublist (pre ++ rest) := by
  induction rest with
  | nil =>
    intro pre st hc h
    exact ⟨st, rfl, hc, by simpa using h⟩
  | cons sh rest ih =>
    intro pre st hc h
    obtain ⟨st1, h1, hc1, hcase⟩ := pq_step_cases hc sh
    have hplaced : (∃ A stage B, st.planning = A ++ stage :: B ∧
        st1.planning = A ++ (stage ++ [sh]) :: B) ∨ st1.planning = st.planning ++ [[sh]] := by
      rcases hcase with ⟨A, stage, B, hP, hP', -⟩ | ⟨hP', -⟩
      · exact Or.inl ⟨A, stage, B, hP, hP'⟩
      · exact Or.inr hP'
    obtain ⟨st2, h2, hc2, hsub⟩ := ih (pre ++ [sh]) st1 hc1 (stages_placed_sublist h hplaced)
    exact ⟨st2, by simp [run, h1, h2], hc2, by simpa using hsub⟩

/-- From an empty planning the loop returns, for every input, a state where queue and planning
agree and every stage is a non-empty subsequence of the input. -/
theorem pq_run_from_empty (L : List Show) :
    ∃ st, run ⟨0, [], []⟩ L = some st ∧ Consistent st ∧
      ∀ stage ∈ st.planning, stage ≠ [] ∧ stage.Sublist L := by
  obtain ⟨st, h1, h2, h3⟩ := pq_run_sublist L [] ⟨0, [], []⟩ Consistent_init (by simp)
  exact ⟨st, h1, h2, by simpa using h3⟩

end SolutionPriorityQueue

namespace SolutionWithNestedLoops

theorem nl_run_sublist (rest : List Show) :
    ∀ (pre : List Show) (P : List (List Show)),
      (∀ stage ∈ P, stage ≠ [] ∧ stage.Sublist pre) →
      ∀ stage ∈ CreatePlanning rest P, stage ≠ [] ∧ stage.Sublist (pre ++ rest) := by
  induction rest with
  | nil =>
    intro pre P h
    simpa [CreatePlanning] using h
  | cons sh rest ih =>
    intro pre P h
    have hplaced : (∃ A stage B, P = A ++ stage :: B ∧
        step P sh = A ++ (stage ++ [sh]) :: B) ∨ step P sh = P ++ [[sh]] := by
      rcases nl_step_cases P sh with ⟨A, stage, B, hP, hP', -, -⟩ | ⟨hP', -⟩
      · exact Or.inl ⟨A, stage, B, hP, hP'⟩
      · exact Or.inr hP'
    have := ih (pre ++ [sh]) (step P sh) (stages_placed_sublist h hplaced)
    simpa [CreatePlanning] using this

end SolutionWithNestedLoops

/-! ## Claims about single iterations and about minimality -/

/-- C13: for every list `L` of shows and every show `e` (in particular when `L` and `L ++ [e]`
are sorted by `SortShows` and all shows have `start < end`),
`SolutionPriorityQueue.CreatePlanning` returns a planning `P` for `L`, all of whose stages hold
a show, and returns for `L ++ [e]` the planning `minFrontierStep P e`: with `m` the least end
time of the last shows of the stages of `P`, if `P` has a stage and `e.start > m` then `e` is
pushed on the lowest-numbered stage whose last show ends at `m`, the other stages unchanged;
otherwise (no stage, or `e.start ≤ m`) one new stage `[e]` is appended. -/
theorem C13_pq_step_characterisation (L : List Show) (e : Show) :
    ∃ P, SolutionPriorityQueue.CreatePlanning L [] = some P ∧
      (∀ stage ∈ P, stage ≠ []) ∧
      SolutionPriorityQueue.CreatePlanning (L ++ [e]) [] = some (minFrontierStep P e) := by
  obtain ⟨st, h1, hc, hne⟩ := SolutionPriorityQueue.pq_run_from_empty L
  obtain ⟨st', h2, -, h3⟩ := SolutionPriorityQueue.pq_step_minFrontier hc e
  refine ⟨st.planning, by simp [SolutionPriorityQueue.CreatePlanning, h1],
    fun stage hs => (hne stage hs).1, ?_⟩
  simp [SolutionPriorityQueue.CreatePlanning, SolutionPriorityQueue.run_append, h1,
    SolutionPriorityQueue.run, h2, h3]

/-- C13 at `L = [("A",1,5), ("B",2,3)]`, `e = ("C",6,7)`, a sorted list of well-formed shows:
the planning `[A]`, `[B]` has least end `3`, reached on the second stage, and `C` goes there. -/
theorem C13_pq_step_characterisation_witness :
    ValidShows ([⟨1, 5, "A"⟩, ⟨2, 3, "B"⟩] ++ [⟨6, 7, "C"⟩]) ∧
    SortedBy SortShows ([⟨1, 5, "A"⟩, ⟨2, 3, "B"⟩] ++ [⟨6, 7, "C"⟩]) ∧
    minFrontierStep [[⟨1, 5, "A"⟩], [⟨2, 3, "B"⟩]] ⟨6, 7, "C"⟩ =
      [[⟨1, 5, "A"⟩], [⟨2, 3, "B"⟩, ⟨6, 7, "C"⟩]] ∧
    ∃ P, SolutionPriorityQueue.CreatePlanning [⟨1, 5, "A"⟩, ⟨2, 3, "B"⟩] [] = some P ∧
      (∀ stage ∈ P, stage ≠ []) ∧
      SolutionPriorityQueue.CreatePlanning ([⟨1, 5, "A"⟩, ⟨2, 3, "B"⟩] ++ [⟨6, 7, "C"⟩]) [] =
        some (minFrontierStep P ⟨6, 7, "C"⟩) :=
  ⟨by decide, by decide, by decide,
    C13_pq_step_characterisation [⟨1, 5, "A"⟩, ⟨2, 3, "B"⟩] ⟨6, 7, "C"⟩⟩

theorem activeIncl_Apart_le_one (t : Int) {stage : List Show} (hc : stage.Pairwise Apart) :
    activeIncl t stage ≤ 1 := by
  induction stage with
  | nil => simp [activeIncl]
  | cons a rest ih =>
    have hc' := List.pairwise_cons.mp hc
    have ih' := ih hc'.2
    have hsplit : activeIncl t (a :: rest) = activeIncl t [a] + activeIncl t rest :=
      activeIncl_append t [a] rest
    by_cases ha : a.startTime ≤ t ∧ t ≤ a.endTime
    · have hz : activeIncl t rest = 0 := by
        unfold activeIncl
        apply List.countP_eq_zero.mpr
        intro b hb
        have := hc'.1 b hb
        unfold Apart at this
        simp only [Bool.and_eq_true, decide_eq_true_eq, not_and, not_le]
        omega
      have hone : activeIncl t [a] ≤ 1 := by
        simp only [activeIncl, List.countP_cons, List.countP_nil]
        split <;> omega
      omega
    · have hzero : activeIncl t [a] = 0 := by
        unfold activeIncl
        apply List.countP_eq_zero.mpr
        intro b hb
        simp only [List.mem_singleton] at hb
        subst hb
        simpa using ha
      omega

theorem activeIncl_flatten_le_of_apart (t : Int) {Q : List (List Show)}
    (h : ∀ stage ∈ Q, stage.Pairwise Apart) : activeIncl t Q.flatten ≤ Q.length := by
  induction Q with
  | nil => simp [activeIncl]
  | cons stage rest ih =>
    rw [List.flatten_cons, activeIncl_append, List.length_cons]
    have h1 := activeIncl_Apart_le_one t (h stage (by simp))
    have h2 := ih (fun s hs => h s (by simp [hs]))
    omega

/-- C14: for every list of shows with `start < end` that is sorted by `SortShows`,
`SolutionPriorityQueue.CreatePlanning` returns a planning whose number of stages is the largest
number of input shows whose closed intervals `[start, end]` share an instant `t`, and every
assignment `Q` of the input shows to stages (the stages of `Q` concatenated are a permutation of
the input) in which any two shows of a stage are strictly separated (one ends strictly before
the other starts) has at least as many stages, the planning returned being itself such an
assignment. -/
theorem C14_pq_minimal_with_adjacency_conflict (L : List Show)
    (hvalid : ValidShows L) (hsorted : SortedBy SortShows L) :
    ∃ P, SolutionPriorityQueue.CreatePlanning L [] = some P ∧
      (∀ t, activeIncl t L ≤ P.length) ∧ (∃ t, activeIncl t L = P.length) ∧
      P.flatten.Perm L ∧ (∀ stage ∈ P, stage.Pairwise Apart) ∧
      ∀ Q : List (List Show), Q.flatten.Perm L → (∀ stage ∈ Q, stage.Pairwise Apart) →
        P.length ≤ Q.length := by
  obtain ⟨P, hP, inv⟩ := SolutionPriorityQueue.pq_CreatePlanning_GreedyInv hvalid hsorted
  obtain ⟨hub, t, ht⟩ := GreedyInv_depth inv
  refine ⟨P, hP, hub, ⟨t, ht⟩, inv.perm, fun stage hs => Chrono_apart (inv.chrono stage hs), ?_⟩
  intro Q hperm hapart
  have h1 : activeIncl t Q.flatten = activeIncl t L := activeIncl_perm t hperm
  have h2 := activeIncl_flatten_le_of_apart t hapart
  omega

/-- C14 at the sorted input `[("A",1,3), ("B",3,5), ("C",4,6)]`. -/
theorem C14_pq_minimal_with_adjacency_conflict_witness :
    ValidShows [⟨1, 3, "A"⟩, ⟨3, 5, "B"⟩, ⟨4, 6, "C"⟩] ∧
    SortedBy SortShows [⟨1, 3, "A"⟩, ⟨3, 5, "B"⟩, ⟨4, 6, "C"⟩] ∧
    ∃ P, SolutionPriorityQueue.CreatePlanning [⟨1, 3, "A"⟩, ⟨3, 5, "B"⟩, ⟨4, 6, "C"⟩] [] =
        some P ∧
      (∀ t, activeIncl t [⟨1, 3, "A"⟩, ⟨3, 5, "B"⟩, ⟨4, 6, "C"⟩] ≤ P.length) ∧
      (∃ t, activeIncl t [⟨1, 3, "A"⟩, ⟨3, 5, "B"⟩, ⟨4, 6, "C"⟩] = P.length) ∧
      P.flatten.Perm [⟨1, 3, "A"⟩, ⟨3, 5, "B"⟩, ⟨4, 6, "C"⟩] ∧
      (∀ stage ∈ P, stage.Pairwise Apart) ∧
      ∀ Q : List (List Show), Q.flatten.Perm [⟨1, 3, "A"⟩, ⟨3, 5, "B"⟩, ⟨4, 6, "C"⟩] →
        (∀ stage ∈ Q, stage.Pairwise Apart) → P.length ≤ Q.length :=
  ⟨by decide, by decide,
    C14_pq_minimal_with_adjacency_conflict [⟨1, 3, "A"⟩, ⟨3, 5, "B"⟩, ⟨4, 6, "C"⟩]
      (by decide) (by decide)⟩

/-! ## The nested-loops solution on sorted input -/

namespace SolutionWithNestedLoops

theorem CanFitStage_iff_lastEnd {sh : Show} {stage : List Show} (hc : Chrono stage)
    (hne : stage ≠ []) (hv : ∀ e ∈ stage, e.startTime ≤ e.endTime)
    (hs : ∀ e ∈ stage, e.startTime ≤ sh.startTime) :
    CanFitStage sh stage = true ↔ lastEnd stage < sh.startTime := by
  rw [CanFitStage_iff]
  constructor
  · intro h
    obtain ⟨e, he, hend⟩ := lastEnd_mem hne
    have h1 := (AreShowsNotOverlapping_iff sh e).mp (h e he)
    have h2 := hs e he
    omega
  · intro h e he
    rw [AreShowsNotOverlapping_iff]
    have h1 := Chrono_le_lastEnd hc hv e he
    have h2 := hv e he
    omega

theorem place_eq_pushOnFirstEndingBefore {sh : Show} {P : List (List Show)}
    (h : ∀ stage ∈ P, (CanFitStage sh stage = true ↔ lastEnd stage < sh.startTime)) :
    place sh P = pushOnFirstEndingBefore sh P := by
  induction P with
  | nil => rfl
  | cons stage rest ih =>
    have ih' := ih (fun s hs => h s (by simp [hs]))
    have h0 := h stage (by simp)
    unfold place pushOnFirstEndingBefore
    by_cases hfit : CanFitStage sh stage = true
    · rw [if_pos hfit, if_pos (h0.mp hfit)]
    · rw [if_neg hfit, if_neg (fun hlt => hfit (h0.mpr hlt)), ih']

theorem nl_step_eq_lastShowFirstFit {sh : Show} {P : List (List Show)}
    (h : ∀ stage ∈ P, (CanFitStage sh stage = true ↔ lastEnd stage < sh.startTime)) :
    step P sh = lastShowFirstFit P sh := by
  unfold step lastShowFirstFit
  rw [place_eq_pushOnFirstEndingBefore h]

theorem nl_CreatePlanning_concat (pre : List Show) (sh : Show) (P : List (List Show)) :
    CreatePlanning (pre ++ [sh]) P = step (CreatePlanning pre P) sh := by
  simp [CreatePlanning, List.foldl_append]

end SolutionWithNestedLoops

/-- C15: for every sorted list `pre ++ sh :: rest` of shows with `start < end`, when the outer
loop of `SolutionWithNestedLoops.CreatePlanning` reaches the show `sh` (the planning then being
the one built from `pre`), every stage holds a show and `CanFitStage sh stage` is true exactly
when the last show of the stage ends strictly before `sh` starts; hence the iteration pushes
`sh` on the lowest-numbered stage whose last show ends strictly before `sh` starts and opens a
new stage exactly when there is no such stage. -/
theorem C15_nl_first_fit_on_last_show (pre : List Show) (sh : Show) (rest : List Show)
    (hvalid : ValidShows (pre ++ sh :: rest))
    (hsorted : SortedBy SortShows (pre ++ sh :: rest)) :
    (∀ stage ∈ SolutionWithNestedLoops.CreatePlanning pre [],
      stage ≠ [] ∧
      (SolutionWithNestedLoops.CanFitStage sh stage = true ↔ lastEnd stage < sh.startTime)) ∧
    SolutionWithNestedLoops.CreatePlanning (pre ++ [sh]) [] =
      lastShowFirstFit (SolutionWithNestedLoops.CreatePlanning pre []) sh ∧
    (pushOnFirstEndingBefore sh (SolutionWithNestedLoops.CreatePlanning pre []) = none ↔
      SolutionWithNestedLoops.CreatePlanning (pre ++ [sh]) [] =
        SolutionWithNestedLoops.CreatePlanning pre [] ++ [[sh]]) := by
  have hvpre : ValidShows pre := fun e he => hvalid e (by simp [he])
  have hspre : SortedBy SortShows pre := (List.pairwise_append.mp hsorted).1
  have inv := SolutionWithNestedLoops.nl_CreatePlanning_GreedyInv hvpre hspre
  have hle := sorted_prefix_start_le hsorted
  have hmem : ∀ stage ∈ SolutionWithNestedLoops.CreatePlanning pre [], ∀ e ∈ stage, e ∈ pre :=
    fun stage hs e he => inv.perm.subset (List.mem_flatten.mpr ⟨stage, hs, he⟩)
  have hfit : ∀ stage ∈ SolutionWithNestedLoops.CreatePlanning pre [],
      (SolutionWithNestedLoops.CanFitStage sh stage = true ↔ lastEnd stage < sh.startTime) :=
    fun stage hs => SolutionWithNestedLoops.CanFitStage_iff_lastEnd (inv.chrono stage hs)
      (inv.nonempty stage hs) (fun e he => le_of_lt (hvpre e (hmem stage hs e he)))
      (fun e he => hle e (hmem stage hs e he))
  have hstep : SolutionWithNestedLoops.CreatePlanning (pre ++ [sh]) [] =
      lastShowFirstFit (SolutionWithNestedLoops.CreatePlanning pre []) sh := by
    rw [SolutionWithNestedLoops.nl_CreatePlanning_concat,
      SolutionWithNestedLoops.nl_step_eq_lastShowFirstFit hfit]
  refine ⟨fun stage hs => ⟨inv.nonempty stage hs, hfit stage hs⟩, hstep, ?_⟩
  rw [hstep]
  unfold lastShowFirstFit
  constructor
  · intro hnone
    rw [hnone]
  · intro heq
    cases hp : pushOnFirstEndingBefore sh (SolutionWithNestedLoops.CreatePlanning pre []) with
    | none => rfl
    | some P' =>
      exfalso
      rw [hp] at heq
      simp only at heq
      have hplace : SolutionWithNestedLoops.place sh
          (SolutionWithNestedLoops.CreatePlanning pre []) = some P' := by
        rw [SolutionWithNestedLoops.place_eq_pushOnFirstEndingBefore hfit, hp]
      obtain ⟨A, stage, B, h1, h2, -, -⟩ := SolutionWithNestedLoops.place_eq_some hplace
      have hlen : P'.length = (SolutionWithNestedLoops.CreatePlanning pre []).length := by
        rw [h2, h1]
        simp
      rw [heq] at hlen
      simp at hlen

/-- C15 at `pre = [("A",1,5), ("B",2,3)]`, `sh = ("C",6,7)`, no show after it. -/
theorem C15_nl_first_fit_on_last_show_witness :
    (∀ stage ∈ SolutionWithNestedLoops.CreatePlanning [⟨1, 5, "A"⟩, ⟨2, 3, "B"⟩] [],
      stage ≠ [] ∧
      (SolutionWithNestedLoops.CanFitStage ⟨6, 7, "C"⟩ stage = true ↔
        lastEnd stage < (⟨6, 7, "C"⟩ : Show).startTime)) ∧
    SolutionWithNestedLoops.CreatePlanning ([⟨1, 5, "A"⟩, ⟨2, 3, "B"⟩] ++ [⟨6, 7, "C"⟩]) [] =
      lastShowFirstFit (SolutionWithNestedLoops.CreatePlanning [⟨1, 5, "A"⟩, ⟨2, 3, "B"⟩] [])
        ⟨6, 7, "C"⟩ ∧
    (pushOnFirstEndingBefore ⟨6, 7, "C"⟩
        (SolutionWithNestedLoops.CreatePlanning [⟨1, 5, "A"⟩, ⟨2, 3, "B"⟩] []) = none ↔
      SolutionWithNestedLoops.CreatePlanning ([⟨1, 5, "A"⟩, ⟨2, 3, "B"⟩] ++ [⟨6, 7, "C"⟩]) [] =
        SolutionWithNestedLoops.CreatePlanning [⟨1, 5, "A"⟩, ⟨2, 3, "B"⟩] [] ++
          [[⟨6, 7, "C"⟩]]) :=
  C15_nl_first_fit_on_last_show [⟨1, 5, "A"⟩, ⟨2, 3, "B"⟩] ⟨6, 7, "C"⟩ []
    (by decide) (by decide)

/-! ## Claims about the order inside the stages -/

theorem OrderedStage_of {L stage : List Show} (hne : stage ≠ []) (hc : Chrono stage)
    (hv : ∀ e ∈ stage, e.startTime ≤ e.endTime) (hsub : stage.Sublist L) :
    OrderedStage L stage := by
  refine ⟨hne, List.Pairwise.chain' hc, ?_, hsub⟩
  refine List.Pairwise.imp_of_mem ?_ hc
  intro a b ha _ hab
  have := hv a ha
  omega

/-- C16: for every list of shows with `start < end` that is sorted by `SortShows`, in the
planning of either `CreatePlanning` function every stage holds a show, any two consecutive
shows `p`, `q` of a stage satisfy `p.end < q.start`, the start times increase strictly along the
stage, and the shows of the stage stand in the order they have in the input. -/
theorem C16_stages_chronological (L : List Show)
    (hvalid : ValidShows L) (hsorted : SortedBy SortShows L) :
    ∃ P, SolutionPriorityQueue.CreatePlanning L [] = some P ∧
      (∀ stage ∈ P, OrderedStage L stage) ∧
      ∀ stage ∈ SolutionWithNestedLoops.CreatePlanning L [], OrderedStage L stage := by
  obtain ⟨P, hP, inv⟩ := SolutionPriorityQueue.pq_CreatePlanning_GreedyInv hvalid hsorted
  have inv2 := SolutionWithNestedLoops.nl_CreatePlanning_GreedyInv hvalid hsorted
  refine ⟨P, hP, ?_, ?_⟩
  · obtain ⟨st, h1, -, hsub⟩ := SolutionPriorityQueue.pq_run_from_empty L
    have hPst : P = st.planning := by
      simp only [SolutionPriorityQueue.CreatePlanning, h1, Option.map_some',
        Option.some.injEq] at hP
      exact hP.symm
    intro stage hs
    refine OrderedStage_of (inv.nonempty stage hs) (inv.chrono stage hs) ?_
      (hsub stage (hPst ▸ hs)).2
    intro e he
    exact le_of_lt (hvalid e (inv.perm.subset (List.mem_flatten.mpr ⟨stage, hs, he⟩)))
  · have hsub := SolutionWithNestedLoops.nl_run_sublist L [] [] (by simp)
    intro stage hs
    refine OrderedStage_of (inv2.nonempty stage hs) (inv2.chrono stage hs) ?_ ?_
    · intro e he
      exact le_of_lt (hvalid e (inv2.perm.subset (List.mem_flatten.mpr ⟨stage, hs, he⟩)))
    · simpa using (hsub stage hs).2

/-- C16 at the sorted input `[("A",1,5), ("B",2,3), ("C",6,7)]`. -/
theorem C16_stages_chronological_witness :
    ValidShows [⟨1, 5, "A"⟩, ⟨2, 3, "B"⟩, ⟨6, 7, "C"⟩] ∧
    SortedBy SortShows [⟨1, 5, "A"⟩, ⟨2, 3, "B"⟩, ⟨6, 7, "C"⟩] ∧
    ∃ P, SolutionPriorityQueue.CreatePlanning [⟨1, 5, "A"⟩, ⟨2, 3, "B"⟩, ⟨6, 7, "C"⟩] [] =
        some P ∧
      (∀ stage ∈ P, OrderedStage [⟨1, 5, "A"⟩, ⟨2, 3, "B"⟩, ⟨6, 7, "C"⟩] stage) ∧
      ∀ stage ∈ SolutionWithNestedLoops.CreatePlanning
          [⟨1, 5, "A"⟩, ⟨2, 3, "B"⟩, ⟨6, 7, "C"⟩] [],
        OrderedStage [⟨1, 5, "A"⟩, ⟨2, 3, "B"⟩, ⟨6, 7, "C"⟩] stage :=
  ⟨by decide, by decide,
    C16_stages_chronological [⟨1, 5, "A"⟩, ⟨2, 3, "B"⟩, ⟨6, 7, "C"⟩] (by decide) (by decide)⟩

/-! ## The queue and the planning -/

namespace SolutionPriorityQueue

theorem StageInfo.gt_total {x y : StageInfo} (h : x ≠ y) :
    StageInfo.gt x y = true ∨ StageInfo.gt y x = true := by
  by_contra hcon
  simp only [not_or, Bool.not_eq_true] at hcon
  have h1 := (StageInfo.gt_false_iff x y).mp hcon.1
  have h2 := (StageInfo.gt_false_iff y x).mp hcon.2
  apply h
  cases x
  cases y
  simp only [StageInfo.mk.injEq] at h1 h2 ⊢
  omega

theorem frontierRecords_map_stageNumber (k : Nat) (P : List (List Show)) :
    (frontierRecords k P).map (fun x => x.stageNumber) = List.range' k P.length := by
  induction P generalizing k with
  | nil => simp [frontierRecords]
  | cons stage rest ih => simp [frontierRecords, ih, List.range'_succ]

theorem pushBackAt_eq_none_iff (P : List (List Show)) (i : Nat) (sh : Show) :
    pushBackAt P i sh = none ↔ P.length ≤ i := by
  induction P generalizing i with
  | nil => simp [pushBackAt]
  | cons stage rest ih =>
    cases i with
    | zero => simp [pushBackAt]
    | succ i => simp [pushBackAt, ih]

theorem Consistent_stageNumbers {st : State} (hc : Consistent st) :
    (st.currentStagesInfoQueue.map (fun x => x.stageNumber)).Perm
      (List.range st.planning.length) := by
  have := hc.2.map (fun x => x.stageNumber)
  rw [frontierRecords_map_stageNumber, List.range'_eq_map_range] at this
  simpa using this

theorem Consistent_top_lt {st : State} (hc : Consistent st) {t : StageInfo}
    (ht : top st.currentStagesInfoQueue = some t) : t.stageNumber < st.planning.length := by
  have hmem : t.stageNumber ∈ st.currentStagesInfoQueue.map (fun x => x.stageNumber) :=
    List.mem_map.mpr ⟨t, top_mem ht, rfl⟩
  have := (Consistent_stageNumbers hc).subset hmem
  simpa using this

theorem Consistent_record {st : State} (hc : Consistent st)
    (hne : ∀ stage ∈ st.planning, stage ≠ []) :
    ∀ x ∈ st.currentStagesInfoQueue, ∃ stage last,
      st.planning[x.stageNumber]? = some stage ∧ stage.getLast? = some last ∧
      x.lastShowEndtime = last.endTime := by
  intro x hx
  obtain ⟨A, stage, B, hP, hrec⟩ := mem_frontierRecords (hc.2.subset hx)
  have hstage : stage ≠ [] := hne stage (by simp [hP])
  cases hl : stage.getLast? with
  | none => exact absurd (List.getLast?_eq_none_iff.mp hl) hstage
  | some last =>
    refine ⟨stage, last, ?_, hl, ?_⟩
    · rw [hP, hrec]
      simp only [Nat.zero_add]
      rw [List.getElem?_append_right (le_refl _)]
      simp
    · rw [hrec]
      simp [lastEnd, hl]

end SolutionPriorityQueue

theorem StageInfo_gt_iff (a b : SolutionPriorityQueue.StageInfo) :
    SolutionPriorityQueue.StageInfo.gt a b = true ↔
      b.lastShowEndtime < a.lastShowEndtime ∨
      (a.lastShowEndtime = b.lastShowEndtime ∧ b.stageNumber < a.stageNumber) := by
  unfold SolutionPriorityQueue.StageInfo.gt
  split <;> simp <;> omega

/-- C18: when `SolutionPriorityQueue.CreatePlanning` is started from an empty planning, for
every input list `L` and every `k` the state after the first `k` iterations exists and the rest
of the run continues from it; in that state the queue has as many records as the planning has
stages, the stage numbers in the queue are pairwise distinct and are exactly the numbers below
`planning.size()`, `lastCreatedStageNumber` is `planning.size()`, every record carries the end
time of the last show of the stage it numbers, `operator>` is asymmetric and transitive and
relates any two distinct records of the queue one way or the other, and the top record occurs
once in the queue and every other record is `operator>` it. -/
theorem C18_queue_planning_invariant (L : List Show) (k : Nat) :
    ∃ st, SolutionPriorityQueue.run ⟨0, [], []⟩ (L.take k) = some st ∧
      SolutionPriorityQueue.run ⟨0, [], []⟩ L = SolutionPriorityQueue.run st (L.drop k) ∧
      st.currentStagesInfoQueue.length = st.planning.length ∧
      (st.currentStagesInfoQueue.map (fun x => x.stageNumber)).Nodup ∧
      (∀ i, i ∈ st.currentStagesInfoQueue.map (fun x => x.stageNumber) ↔
        i < st.planning.length) ∧
      st.lastCreatedStageNumber = st.planning.length ∧
      (∀ x ∈ st.currentStagesInfoQueue, ∃ stage last,
        st.planning[x.stageNumber]? = some stage ∧ stage.getLast? = some last ∧
        x.lastShowEndtime = last.endTime) ∧
      (∀ x y : SolutionPriorityQueue.StageInfo,
        SolutionPriorityQueue.StageInfo.gt x y = true →
        SolutionPriorityQueue.StageInfo.gt y x = false) ∧
      (∀ x y z : SolutionPriorityQueue.StageInfo,
        SolutionPriorityQueue.StageInfo.gt x y = true →
        SolutionPriorityQueue.StageInfo.gt y z = true →
        SolutionPriorityQueue.StageInfo.gt x z = true) ∧
      (∀ x ∈ st.currentStagesInfoQueue, ∀ y ∈ st.currentStagesInfoQueue, x ≠ y →
        x.stageNumber ≠ y.stageNumber ∧
        (SolutionPriorityQueue.StageInfo.gt x y = true ∨
          SolutionPriorityQueue.StageInfo.gt y x = true)) ∧
      (∀ t, SolutionPriorityQueue.top st.currentStagesInfoQueue = some t →
        st.currentStagesInfoQueue.count t = 1 ∧
        ∀ x ∈ st.currentStagesInfoQueue, x ≠ t →
          SolutionPriorityQueue.StageInfo.gt x t = true) := by
  obtain ⟨st, h1, hc, hne⟩ := SolutionPriorityQueue.pq_run_from_empty (L.take k)
  have hperm := SolutionPriorityQueue.Consistent_stageNumbers hc
  have hnodup : (st.currentStagesInfoQueue.map (fun x => x.stageNumber)).Nodup :=
    hperm.nodup_iff.mpr (List.nodup_range _)
  have hnd : st.currentStagesInfoQueue.Nodup := List.Nodup.of_map _ hnodup
  refine ⟨st, h1, ?_, ?_, hnodup, ?_, hc.1, ?_, ?_, ?_, ?_, ?_⟩
  · have hL : L = L.take k ++ L.drop k := (List.take_append_drop k L).symm
    conv_lhs => rw [hL]
    rw [SolutionPriorityQueue.run_append, h1]
    rfl
  · have := hc.2.length_eq
    rw [SolutionPriorityQueue.frontierRecords_length] at this
    exact this
  · intro i
    rw [hperm.mem_iff]
    simp
  · exact SolutionPriorityQueue.Consistent_record hc (fun stage hs => (hne stage hs).1)
  · intro x y
    rw [StageInfo_gt_iff, SolutionPriorityQueue.StageInfo.gt_false_iff]
    omega
  · intro x y z
    rw [StageInfo_gt_iff, StageInfo_gt_iff, StageInfo_gt_iff]
    omega
  · intro x hx y hy hxy
    refine ⟨?_, SolutionPriorityQueue.StageInfo.gt_total hxy⟩
    intro hnum
    exact hxy (List.inj_on_of_nodup_map hnodup hx hy hnum)
  · intro t ht
    refine ⟨List.count_eq_one_of_mem hnd (SolutionPriorityQueue.top_mem ht), ?_⟩
    intro x hx hxt
    have h2 := SolutionPriorityQueue.top_least ht x hx
    rcases SolutionPriorityQueue.StageInfo.gt_total hxt with h | h
    · exact h
    · rw [h2] at h
      exact absurd h (by simp)

/-- C19: when `SolutionPriorityQueue.CreatePlanning` is started from an empty planning, for
every input list `pre ++ sh :: rest`, in the state reached when the loop comes to `sh` the stage
number of the top record is below `planning.size()`, so the access
`planning[stageWithEarliestEndTime.stageNumber]` is in range (`pushBackAt` is `none` exactly for
an index out of range), the iteration is carried out, and so is the whole call. -/
theorem C19_index_in_range (pre : List Show) (sh : Show) (rest : List Show) :
    ∃ st, SolutionPriorityQueue.run ⟨0, [], []⟩ pre = some st ∧
      (∀ t, SolutionPriorityQueue.top st.currentStagesInfoQueue = some t →
        t.stageNumber < st.planning.length ∧
        SolutionPriorityQueue.pushBackAt st.planning t.stageNumber sh ≠ none) ∧
      (∀ i, SolutionPriorityQueue.pushBackAt st.planning i sh = none ↔
        st.planning.length ≤ i) ∧
      SolutionPriorityQueue.step st sh ≠ none ∧
      SolutionPriorityQueue.CreatePlanning (pre ++ sh :: rest) [] ≠ none := by
  obtain ⟨st, h1, hc, -⟩ := SolutionPriorityQueue.pq_run_from_empty pre
  refine ⟨st, h1, ?_, fun i => SolutionPriorityQueue.pushBackAt_eq_none_iff _ i sh, ?_, ?_⟩
  · intro t ht
    have hlt := SolutionPriorityQueue.Consistent_top_lt hc ht
    refine ⟨hlt, ?_⟩
    rw [Ne, SolutionPriorityQueue.pushBackAt_eq_none_iff]
    omega
  · obtain ⟨st', h2, -, -⟩ := SolutionPriorityQueue.pq_step_cases hc sh
    rw [h2]
    simp
  · obtain ⟨st2, h2, -, -⟩ := SolutionPriorityQueue.pq_run_from_empty (pre ++ sh :: rest)
    simp [SolutionPriorityQueue.CreatePlanning, h2]
